import Mathlib

/-!
Verification development for the multi-agent lab repository.

The Python modules `src/cache.py`, `src/config.py`, `src/agents.py` and
`src/graph.py` are shallowly embedded below: Python dicts become association
lists in insertion order (the iteration order Python guarantees), wall-clock
datetimes become natural-number instants, floats become rationals, and the
external LLM backend becomes an explicit oracle parameter.  Each embedded
definition is translated line by line from the corresponding source function.
-/

set_option maxRecDepth 4000

namespace Lab2

/-! ## Association lists in insertion order (Python `dict` model)

Python dictionaries preserve insertion order, assignment to an existing key
updates the value in place (keeping the key position), and `del` removes the
unique binding of a key.  We model them as `List (String × α)` with the three
operations below. -/

/-- `d[k]` / `k in d`: the first value bound to `k`. -/
def alookup {α : Type} (k : String) : List (String × α) → Option α
  | [] => none
  | (k', v) :: rest => if k' = k then some v else alookup k rest

/-- `d[k] = v`: replace the binding in place if `k` is present, append at the
end otherwise. -/
def aupsert {α : Type} (k : String) (v : α) : List (String × α) → List (String × α)
  | [] => [(k, v)]
  | (k', v') :: rest => if k' = k then (k', v) :: rest else (k', v') :: aupsert k v rest

/-- `del d[k]`: remove the (unique) binding of `k`. -/
def aerase {α : Type} (k : String) : List (String × α) → List (String × α)
  | [] => []
  | (k', v') :: rest => if k' = k then rest else (k', v') :: aerase k rest

/-! ## `QueryCache` (src/cache.py lines 11-138) -/

/-- The value stored under a query hash by `QueryCache.put`. -/
structure CacheEntry (ρ : Type) where
  query : String
  result : ρ
  execution_time : Nat
  timestamp : Nat
  expires : Nat
  deriving Repr, DecidableEq

/-- The default whitespace set of Python `str.strip`. -/
def isPythonSpace (c : Char) : Bool :=
  c = ' ' || c = '\t' || c = '\n' || c = '\r' || c = '\x0b' || c = '\x0c'

/-- Python `str.lower` (ASCII case folding, like `Char.toLower`). -/
def pyLower (s : String) : String :=
  String.mk (s.data.map Char.toLower)

/-- Python `str.strip()`: drop leading and trailing whitespace. -/
def pyStrip (s : String) : String :=
  String.mk (((s.data.dropWhile isPythonSpace).reverse.dropWhile isPythonSpace).reverse)

/-- `query.lower().strip()`: case-fold then trim surrounding whitespace. -/
def normalize (query : String) : String :=
  pyStrip (pyLower query)

/-- `QueryCache.get_hash`: md5 hex digest of the case-folded,
whitespace-trimmed query.  The digest is modelled by the normalized text
itself, an injective stand-in for the hash (collisions are accepted by the
source and ignored here). -/
def get_hash (query : String) : String :=
  normalize query

/-- State of a `QueryCache` instance: the dict of entries plus the statistics
counters.  Instants and durations are naturals (Python uses `datetime`). -/
structure QueryCache (ρ : Type) where
  cache : List (String × CacheEntry ρ)
  max_size : Nat
  ttl : Nat
  hits : Nat
  misses : Nat
  total_saved_time : Nat
  deriving Repr, DecidableEq

/-- `QueryCache.__init__`. -/
def QueryCache.empty (ρ : Type) (max_size ttl : Nat) : QueryCache ρ :=
  ⟨[], max_size, ttl, 0, 0, 0⟩

/-- `QueryCache.get(query)` at instant `now` (`datetime.now()`): returns the
cached result (if any) together with the updated cache state. -/
def QueryCache.get {ρ : Type} (c : QueryCache ρ) (query : String) (now : Nat) :
    Option ρ × QueryCache ρ :=
  let query_hash := get_hash query
  match alookup query_hash c.cache with
  | none => (none, { c with misses := c.misses + 1 })
  | some entry =>
    if entry.expires < now then
      (none, { c with cache := aerase query_hash c.cache, misses := c.misses + 1 })
    else
      (some entry.result,
       { c with hits := c.hits + 1,
                total_saved_time := c.total_saved_time + entry.execution_time })

/-- Python `min(iterable, key=...)`: left-to-right scan keeping the first
element with the minimal timestamp. -/
def minByTimestamp {ρ : Type} (p : String × CacheEntry ρ) :
    List (String × CacheEntry ρ) → String × CacheEntry ρ
  | [] => p
  | q :: rest => minByTimestamp (if q.2.timestamp < p.2.timestamp then q else p) rest

/-- `min(self.cache.keys(), key=lambda k: self.cache[k]["timestamp"])` together
with its entry; `none` on an empty dict (where the source would raise). -/
def oldestEntry? {ρ : Type} : List (String × CacheEntry ρ) → Option (String × CacheEntry ρ)
  | [] => none
  | p :: rest => some (minByTimestamp p rest)

/-- `QueryCache.put(query, result, execution_time)` at instant `now`:
evict the oldest entry when at capacity, then insert/update. -/
def QueryCache.put {ρ : Type} (c : QueryCache ρ) (query : String) (result : ρ)
    (execution_time : Nat) (now : Nat) : QueryCache ρ :=
  let query_hash := get_hash query
  let cache₀ :=
    if c.max_size ≤ c.cache.length then
      match oldestEntry? c.cache with
      | none => c.cache
      | some oldest => aerase oldest.1 c.cache
    else c.cache
  { c with cache :=
      aupsert query_hash ⟨query, result, execution_time, now, now + c.ttl⟩ cache₀ }

/-- Fold a sequence of `put` calls (query, result, execution_time, now). -/
def applyPuts {ρ : Type} (c : QueryCache ρ) : List (String × ρ × Nat × Nat) → QueryCache ρ
  | [] => c
  | (q, r, et, t) :: rest => applyPuts (c.put q r et t) rest

/-! ## `RequestDeduplicator` (src/cache.py lines 141-216) -/

/-- Inner loop of the Wagner-Fischer row update: given the previous row
(from column `j` on), the remaining characters of `s2`, and the value just
written at the current column (`current_row[j]`), produce the rest of the
current row.  Mirrors the `for j, c2 in enumerate(s2)` loop. -/
def levRowAux (c1 : Char) : Nat → List Nat → List Char → List Nat
  | cur, pj :: pj1 :: prest, c2 :: crest =>
    let v := min (min (pj1 + 1) (cur + 1)) (pj + (if c1 = c2 then 0 else 1))
    v :: levRowAux c1 v (pj1 :: prest) crest
  | _, _, _ => []

/-- Outer loop: one row per character of `s1`, starting from
`previous_row = range(len(s2) + 1)`. -/
def levLoop (s2 : List Char) : List Nat → List Char → Nat → List Nat
  | prev, [], _ => prev
  | prev, c1 :: s1rest, i =>
    levLoop s2 ((i + 1) :: levRowAux c1 (i + 1) prev s2) s1rest (i + 1)

/-- Body of `levenshtein_distance` after the argument swap (`len(s1) ≥ len(s2)`
is assumed by the source at this point). -/
def levCore (s1 s2 : List Char) : Nat :=
  if s2.length = 0 then s1.length
  else (levLoop s2 (List.range (s2.length + 1)) s1 0).getLastD 0

/-- `RequestDeduplicator.levenshtein_distance`: swap so the first string is
the longer one, then run the DP. -/
def levenshtein_distance (s1 s2 : String) : Nat :=
  if s1.length < s2.length then levCore s2.data s1.data
  else levCore s1.data s2.data

/-- `RequestDeduplicator.similarity`: normalized edit-distance similarity in
`[0, 1]`, with equal-after-normalization short-circuited to `1.0`.  Python
floats are modelled as rationals. -/
def similarity (q1 q2 : String) : ℚ :=
  let s1 := normalize q1
  let s2 := normalize q2
  if s1 = s2 then 1
  else
    let max_len := max s1.length s2.length
    if max_len = 0 then 1
    else 1 - (levenshtein_distance s1 s2 : ℚ) / (max_len : ℚ)

/-- State of a `RequestDeduplicator`: `processed_queries` dict plus the
configured threshold. -/
structure RequestDeduplicator (ρ : Type) where
  processed_queries : List (String × ρ)
  threshold : ℚ
  deriving Repr, DecidableEq

/-- The scan inside `find_duplicate`: first registered query whose similarity
to `query` reaches the threshold wins. -/
def findDupScan {ρ : Type} (threshold : ℚ) (query : String) : List (String × ρ) → Option ρ
  | [] => none
  | (prev_query, result) :: rest =>
    if threshold ≤ similarity query prev_query then some result
    else findDupScan threshold query rest

/-- `RequestDeduplicator.find_duplicate`. -/
def RequestDeduplicator.find_duplicate {ρ : Type} (d : RequestDeduplicator ρ)
    (query : String) : Option ρ :=
  findDupScan d.threshold query d.processed_queries

/-- `RequestDeduplicator.register`: unconditional store
(`self.processed_queries[query] = result`). -/
def RequestDeduplicator.register {ρ : Type} (d : RequestDeduplicator ρ)
    (query : String) (result : ρ) : RequestDeduplicator ρ :=
  { d with processed_queries := aupsert query result d.processed_queries }

/-! ## `PydanticParserWithRetry` (src/config.py lines 48-152)

The LLM backend is an oracle `llm : Nat → String → Except String String`
mapping the index of the invocation (so that repeated calls may answer
differently) and the prompt text to either the message content or the raised
exception text.  The composite `json.loads` + `self.model(**data)` step is an
oracle `jsonParse` classifying each candidate string into a parsed value, an
exception of the caught kinds (`ValidationError`, `json.JSONDecodeError`), or
an exception of any other kind (e.g. `TypeError`), which the retry loop does
not catch. -/

/-- Outcome of `json.loads(json_str)` followed by `self.model(**data)`. -/
inductive ParseOutcome (α : Type) where
  | ok (a : α)
  | caught (e : String)
  | uncaught (e : String)
  deriving Repr, DecidableEq

/-- Index of the first occurrence of `c`, scanning left to right
(Python `str.find`). -/
def firstIdxOf (c : Char) (cs : List Char) : Option Nat :=
  cs.findIdx? (fun x => x = c)

/-- Index of the last occurrence of `c` (Python `str.rfind`). -/
def lastIdxOf (c : Char) (cs : List Char) : Option Nat :=
  match firstIdxOf c cs.reverse with
  | none => none
  | some i => some (cs.length - 1 - i)

/-- The JSON-extraction step of `parse_with_retry`: slice from the first
`\x7b` to the last `\x7d` when both braces occur, otherwise keep the whole
text.  `s[start:end]` with `start > end` is the empty string, as in Python. -/
def extract_json (llm_output : String) : String :=
  let cs := llm_output.data
  match firstIdxOf '\x7b' cs, lastIdxOf '\x7d' cs with
  | some start, some stop => String.mk ((cs.drop start).take (stop + 1 - start))
  | _, _ => llm_output

/-- The correction prompt sent back to the LLM: schema description plus the
first 300 characters of the failing output. -/
def correction_prompt (format_instructions llm_output : String) : String :=
  "Fix JSON error. Schema: " ++ format_instructions ++ ". Original: " ++
    llm_output.take 300 ++ ". Return ONLY valid JSON."

/-- How a call of `parse_with_retry` (or `invoke_with_retry`) ends: a parsed
model instance, a raised exception, or the `return None` fall-through after
the loop. -/
inductive PResult (α : Type) where
  | parsed (a : α)
  | raised (msg : String)
  | returnedNone
  deriving Repr, DecidableEq

/-- Observable trace of a `parse_with_retry` call: its outcome, the value of
`llm_output` at each parse attempt, and every correction prompt sent to the
backend. -/
structure PTrace (α : Type) where
  result : PResult α
  attempts : List String
  prompts : List String
  deriving Repr, DecidableEq

/-- The `for attempt in range(self.max_retries)` loop of `parse_with_retry`.
`fuel` counts the attempts still allowed (so `fuel = 1` is the final attempt,
`attempt == self.max_retries - 1` in the source); `k` is the index of the next
backend invocation.  On a caught error at the final attempt the loop raises
`ValueError("Parser failed: ...")`; on earlier caught errors it sends the
correction prompt and continues with the corrected text (or, when the
correction call itself raises, with the unchanged text).  Exhausting the loop
reaches the trailing `return None`. -/
def parse_with_retry_go {α : Type} (llm : Nat → String → Except String String)
    (jsonParse : String → ParseOutcome α) (format_instructions : String) :
    Nat → Nat → String → PTrace α
  | 0, _, _ => ⟨.returnedNone, [], []⟩
  | n + 1, k, llm_output =>
    match jsonParse (extract_json llm_output) with
    | .ok result => ⟨.parsed result, [llm_output], []⟩
    | .uncaught e => ⟨.raised e, [llm_output], []⟩
    | .caught e =>
      if n = 0 then
        ⟨.raised ("Parser failed: " ++ e), [llm_output], []⟩
      else
        let prompt := correction_prompt format_instructions llm_output
        match llm k prompt with
        | .ok content =>
          let rest := parse_with_retry_go llm jsonParse format_instructions n (k + 1) content
          ⟨rest.result, llm_output :: rest.attempts, prompt :: rest.prompts⟩
        | .error _ =>
          let rest := parse_with_retry_go llm jsonParse format_instructions n (k + 1) llm_output
          ⟨rest.result, llm_output :: rest.attempts, prompt :: rest.prompts⟩

/-- `PydanticParserWithRetry.parse_with_retry(llm_output)` with backend calls
starting at invocation index 0. -/
def parse_with_retry {α : Type} (llm : Nat → String → Except String String)
    (jsonParse : String → ParseOutcome α) (format_instructions : String)
    (max_retries : Nat) (llm_output : String) : PTrace α :=
  parse_with_retry_go llm jsonParse format_instructions max_retries 0 llm_output

/-- Observable trace of an `invoke_with_retry` call: outcome, number of
`chain.invoke` attempts, all parse attempts and correction prompts of the
inner `parse_with_retry` calls, and the total number of backend invocations. -/
structure ITrace (α : Type) where
  result : PResult α
  chain_calls : Nat
  attempts : List String
  prompts : List String
  llm_calls : Nat
  deriving Repr, DecidableEq

/-- The `for attempt in range(self.max_retries)` loop of `invoke_with_retry`.
Each iteration invokes the chain (one backend call with the templated
`chain_prompt`); on success it returns whatever `parse_with_retry` produces —
but an exception raised by `parse_with_retry` is caught by the enclosing
`except Exception` and, unless this was the final attempt, triggers a fresh
outer attempt.  Note the inner call always runs with the full
`self.max_retries` budget. -/
def invoke_with_retry_go {α : Type} (llm : Nat → String → Except String String)
    (jsonParse : String → ParseOutcome α) (format_instructions chain_prompt : String)
    (max_retries : Nat) : Nat → Nat → ITrace α
  | 0, _ => ⟨.returnedNone, 0, [], [], 0⟩
  | n + 1, k =>
    match llm k chain_prompt with
    | .error e =>
      if n = 0 then ⟨.raised e, 1, [], [], 1⟩
      else
        let rest := invoke_with_retry_go llm jsonParse format_instructions chain_prompt
          max_retries n (k + 1)
        ⟨rest.result, rest.chain_calls + 1, rest.attempts, rest.prompts, rest.llm_calls + 1⟩
    | .ok content =>
      let inner := parse_with_retry_go llm jsonParse format_instructions max_retries
        (k + 1) content
      match inner.result with
      | .parsed a => ⟨.parsed a, 1, inner.attempts, inner.prompts, inner.prompts.length + 1⟩
      | .returnedNone =>
        ⟨.returnedNone, 1, inner.attempts, inner.prompts, inner.prompts.length + 1⟩
      | .raised msg =>
        if n = 0 then ⟨.raised msg, 1, inner.attempts, inner.prompts, inner.prompts.length + 1⟩
        else
          let rest := invoke_with_retry_go llm jsonParse format_instructions chain_prompt
            max_retries n (k + 1 + inner.prompts.length)
          ⟨rest.result, rest.chain_calls + 1, inner.attempts ++ rest.attempts,
           inner.prompts ++ rest.prompts, rest.llm_calls + inner.prompts.length + 1⟩

/-- `PydanticParserWithRetry.invoke_with_retry(prompt, input_dict)`:
`chain_prompt` stands for the prompt template instantiated with
`input_dict` (identical on every outer attempt). -/
def invoke_with_retry {α : Type} (llm : Nat → String → Except String String)
    (jsonParse : String → ParseOutcome α) (format_instructions chain_prompt : String)
    (max_retries : Nat) : ITrace α :=
  invoke_with_retry_go llm jsonParse format_instructions chain_prompt
    max_retries max_retries 0

/-! ## Data models (src/models.py) -/

/-- Router output schema `QueryClassification`. -/
structure QueryClassification where
  query_type : String
  complexity : String
  requires_tools : Bool
  agent_path : List String
  reasoning : String
  deriving Repr, DecidableEq

/-- Theory Explainer output schema `TheoryExplanation`
(`confidence` is a float in the source, modelled as a rational). -/
structure TheoryExplanation where
  topic : String
  explanation : String
  key_concepts : List String
  examples : List String
  confidence : ℚ
  deriving Repr, DecidableEq

/-- Design Advisor output schema `DesignAdvice`
(`pros_cons : Dict[str, List[str]]` becomes an association list). -/
structure DesignAdvice where
  design_patterns : List String
  architecture_recommendation : String
  pros_cons : List (String × List String)
  code_snippet : Option String
  deriving Repr, DecidableEq

/-- Code Helper output schema `CodeSolution`
(each test case is a `Dict[str, str]`). -/
structure CodeSolution where
  problem : String
  solution_explanation : String
  code : String
  complexity : String
  test_cases : List (List (String × String))
  deriving Repr, DecidableEq

/-- Planner output schema `PlanOutput` (each step is a `Dict[str, str]`). -/
structure PlanOutput where
  goal : String
  steps : List (List (String × String))
  timeline : String
  resources_needed : List String
  deriving Repr, DecidableEq

/-- One `ReActThought` step. -/
structure ReActThought where
  thought : String
  action : String
  observation : Option String
  deriving Repr, DecidableEq

/-- `AgentResponse`, the final-answer record built by the synthesizer. -/
structure AgentResponse where
  react_thoughts : List ReActThought
  final_answer : String
  source_agent : String
  used_tools : List String
  deriving Repr, DecidableEq

/-- One entry of `SessionMemory.conversation_history`
(the dict appended by the synthesizer). -/
structure ConversationTurn where
  query : String
  response : String
  agents_used : List String
  deriving Repr, DecidableEq

/-- `SessionMemory` dataclass. -/
structure SessionMemory where
  session_id : String
  user_profile : List (String × String)
  conversation_history : List ConversationTurn
  previous_questions : List String
  learned_topics : List String
  deriving Repr, DecidableEq

/-- The value stored in `state["agent_outputs"]` under a specialist's key:
a tagged union over the four output schemas (the source stores the Pydantic
objects themselves in an untyped dict). -/
inductive AgentOutput where
  | theory (t : TheoryExplanation)
  | design (d : DesignAdvice)
  | code (c : CodeSolution)
  | planning (p : PlanOutput)
  deriving Repr, DecidableEq

/-- The `GraphState` TypedDict threaded through the LangGraph.  The
`retrieved_context` key (written by the router and the memory retriever,
absent initially) is an `Option`. -/
structure GraphState where
  user_query : String
  session_memory : SessionMemory
  classification : Option QueryClassification
  react_chain : List ReActThought
  agent_outputs : List (String × AgentOutput)
  final_answer : Option AgentResponse
  execution_log : List String
  errors : List String
  retry_count : Nat
  retrieved_context : Option String
  deriving Repr, DecidableEq

/-- The initial state built by `run_assistant` in `main.py`. -/
def initial_state (query : String) (memory : SessionMemory) : GraphState :=
  { user_query := query
    session_memory := memory
    classification := none
    react_chain := []
    agent_outputs := []
    final_answer := none
    execution_log := []
    errors := []
    retry_count := 0
    retrieved_context := none }

/-! ## Agent nodes (src/agents.py)

Each node's only fallible step inside its `try` block is the decoder call
`parser.invoke_with_retry(...)`; its outcome is passed in as an
`Except String τ` (`.error e` is the exception with text `e`).  The external
tools (`query_knowledge_base`, `execute_python`, `save_to_notes`) are
string-to-string collaborators passed as functions.  Since LangGraph merges a
node's returned partial dict into the state by overwriting exactly the
returned keys, each node is modelled as a total state transformer that
rewrites precisely those fields. -/

/-- `router_node`: on success records the classification, one ReAct thought
and an `OK: Router` log entry; on decoder failure appends the error and a
`FAILED: Router` log marker. -/
def router_node (decode : Except String QueryClassification)
    (state : GraphState) : GraphState :=
  let thought := "Analyzing: \x27" ++ state.user_query.take 60 ++ "\x27"
  match decode with
  | .ok classification =>
    let react_thought : ReActThought :=
      ⟨thought, "Route to " ++ classification.query_type,
        some ("Path: " ++ String.intercalate " → " classification.agent_path)⟩
    { state with
        classification := some classification
        react_chain := state.react_chain ++ [react_thought]
        execution_log := state.execution_log ++ ["OK: Router"]
        retrieved_context := some "" }
  | .error e =>
    { state with
        errors := state.errors ++ ["Router: " ++ e.take 80]
        execution_log := state.execution_log ++ ["FAILED: Router"] }

/-- `"=" * 40`, the separator `memory_retriever_node` splits the notes on. -/
def notesSeparator : String :=
  String.mk (List.replicate 40 '=')

/-- `memory_retriever_node`: stores the notes text as retrieved context and
logs one ReAct thought; `notes` is the `read_notes()` result. -/
def memory_retriever_node (notes : String) (state : GraphState) : GraphState :=
  let count := (notes.splitOn notesSeparator).length / 2
  let react_thought : ReActThought :=
    ⟨"Checking notes for relevant context...", "call_note_reader",
      some ("Retrieved " ++ toString count ++ " historical entries from notes.")⟩
  { state with
      retrieved_context := some notes
      react_chain := state.react_chain ++ [react_thought]
      execution_log := state.execution_log ++ ["OK: Memory Retriever"] }

/-- `theory_explainer_node`: no-op unless the classification's category is
`theory`; on decoder failure appends only an `errors` entry (no
`execution_log` update appears in the source's handler). -/
def theory_explainer_node (decode : Except String TheoryExplanation)
    (query_knowledge_base : String → String) (state : GraphState) : GraphState :=
  match state.classification with
  | none => state
  | some c =>
    if c.query_type ≠ "theory" then state
    else
      match decode with
      | .ok explanation =>
        let kb_result := query_knowledge_base explanation.topic
        let react_thought : ReActThought :=
          ⟨"Explaining: " ++ explanation.topic ++ ". KB Query: " ++ explanation.topic,
            "call_knowledge_base", some (kb_result.take 100)⟩
        { state with
            agent_outputs := aupsert "theory" (AgentOutput.theory explanation)
              state.agent_outputs
            react_chain := state.react_chain ++ [react_thought]
            execution_log := state.execution_log ++ ["OK: Theory (with tool)"] }
      | .error e =>
        { state with errors := state.errors ++ ["Theory: " ++ e.take 80] }

/-- `design_advisor_node`: no-op unless the category is `design`; on decoder
failure appends only an `errors` entry. -/
def design_advisor_node (decode : Except String DesignAdvice)
    (state : GraphState) : GraphState :=
  match state.classification with
  | none => state
  | some c =>
    if c.query_type ≠ "design" then state
    else
      match decode with
      | .ok advice =>
        let react_thought : ReActThought :=
          ⟨"Analyzing design patterns",
            "Generate architecture advice (" ++ toString advice.design_patterns.length
              ++ " patterns)",
            some ("Patterns: " ++ String.intercalate ", " (advice.design_patterns.take 3))⟩
        { state with
            agent_outputs := aupsert "design" (AgentOutput.design advice)
              state.agent_outputs
            react_chain := state.react_chain ++ [react_thought]
            execution_log := state.execution_log ++ ["OK: Design"] }
      | .error e =>
        { state with errors := state.errors ++ ["Design: " ++ e.take 80] }

/-- `code_helper_node`: no-op unless the category is `code`; on decoder
failure appends only an `errors` entry. -/
def code_helper_node (decode : Except String CodeSolution)
    (execute_python : String → String) (state : GraphState) : GraphState :=
  match state.classification with
  | none => state
  | some c =>
    if c.query_type ≠ "code" then state
    else
      match decode with
      | .ok solution =>
        let exec_result := execute_python solution.code
        let react_thought : ReActThought :=
          ⟨"Solving: " ++ solution.problem.take 50 ++ ". Executing code...",
            "call_python_executor", some (exec_result.take 100)⟩
        { state with
            agent_outputs := aupsert "code" (AgentOutput.code solution)
              state.agent_outputs
            react_chain := state.react_chain ++ [react_thought]
            execution_log := state.execution_log ++ ["OK: Code (with tool)"] }
      | .error e =>
        { state with errors := state.errors ++ ["Code: " ++ e.take 80] }

/-- `planner_node`: no-op unless the category is `planning`.  Building the
note content reads `s["title"]` of every step; a step without that key raises
`KeyError("title")` inside the `try`, which the handler records like any other
failure.  On decoder failure appends only an `errors` entry. -/
def planner_node (decode : Except String PlanOutput)
    (save_to_notes : String → String) (state : GraphState) : GraphState :=
  match state.classification with
  | none => state
  | some c =>
    if c.query_type ≠ "planning" then state
    else
      match decode with
      | .ok plan =>
        if plan.steps.all (fun s => (alookup "title" s).isSome) then
          let note_content := "Goal: " ++ plan.goal ++ "\nSteps: " ++
            String.intercalate ", " (plan.steps.map (fun s => (alookup "title" s).getD ""))
          let save_result := save_to_notes note_content
          let react_thought : ReActThought :=
            ⟨"Planning: " ++ plan.goal ++ ". Saving to notes...",
              "call_note_taker", some save_result⟩
          { state with
              agent_outputs := aupsert "planning" (AgentOutput.planning plan)
                state.agent_outputs
              react_chain := state.react_chain ++ [react_thought]
              execution_log := state.execution_log ++ ["OK: Planner (with tool)"] }
        else
          { state with errors := state.errors ++ ["Planner: " ++ ("\x27title\x27").take 80] }
      | .error e =>
        { state with errors := state.errors ++ ["Planner: " ++ e.take 80] }

/-- Whether `needle` occurs as a contiguous sublist (Python `in` on strings). -/
def subListOccurs (needle : List Char) : List Char → Bool
  | [] => needle.isEmpty
  | c :: rest => needle.isPrefixOf (c :: rest) || subListOccurs needle rest

/-- Python `"tool" in action.lower()`. -/
def mentionsTool (action : String) : Bool :=
  subListOccurs "tool".data (pyLower action).data

/-- The per-branch prose selection of `synthesizer_node`: theory, then design,
then code, then planning, then the fallback summary.  The source tests key
membership and then reads the object's attributes; a key bound to an output of
the wrong kind would raise `AttributeError` there (unreachable through the
graph, where each specialist stores its own schema) and is mapped to the
fallback here. -/
def synthesizerText (state : GraphState) : String :=
  let agent_outputs := state.agent_outputs
  match alookup "theory" agent_outputs, alookup "design" agent_outputs,
      alookup "code" agent_outputs, alookup "planning" agent_outputs with
  | some (AgentOutput.theory theory), _, _, _ =>
    theory.explanation ++
      (if theory.examples.isEmpty then ""
       else "\n\nExamples:\n" ++
         String.intercalate "\n" (theory.examples.map (fun ex => "- " ++ ex)))
  | _, some (AgentOutput.design design), _, _ =>
    design.architecture_recommendation ++
      (if design.design_patterns.isEmpty then ""
       else "\n\nRecommended Design Patterns:\n" ++
         String.intercalate "\n" (design.design_patterns.map (fun p => "- " ++ p)))
  | _, _, some (AgentOutput.code code), _ =>
    code.solution_explanation ++ "\n\n```python\n" ++ code.code ++ "\n```"
  | _, _, _, some (AgentOutput.planning plan) =>
    "Goal: " ++ plan.goal ++ "\n\nTimeline: " ++ plan.timeline ++ "\n\nSteps:" ++
      String.join ((plan.steps.enum).map (fun is =>
        "\n" ++ toString (is.1 + 1) ++ ". " ++
          ((alookup "description" is.2).getD ((alookup "step" is.2).getD "Unknown step"))))
  | _, _, _, _ =>
    let outputs_summary :=
      if agent_outputs.isEmpty then "none"
      else String.intercalate ", " (agent_outputs.map Prod.fst)
    let agent_chain :=
      match state.classification with
      | some c => String.intercalate " → " c.agent_path
      | none => "unknown"
    "Processed query through: " ++ agent_chain ++ ". Available outputs: " ++ outputs_summary

/-- `synthesizer_node`: assembles the final answer text, collects tool names
from the ReAct chain (`toolNameOf` stands for the regex search for a word
ending in `_tool`; `list(set(...))` becomes first-occurrence deduplication),
appends the turn to the session memory, and writes `final_answer`. -/
def synthesizer_node (toolNameOf : String → Option String) (state : GraphState) :
    GraphState :=
  let agent_outputs := state.agent_outputs
  let final_answer_text := synthesizerText state
  let used_tools := state.react_chain.foldl (fun acc thought =>
    if mentionsTool thought.action then
      match toolNameOf thought.action with
      | some m => acc ++ [m]
      | none => acc
    else acc) []
  let final_answer : AgentResponse :=
    ⟨state.react_chain, final_answer_text, "synthesizer", used_tools.eraseDups⟩
  let memory := state.session_memory
  let memory :=
    { memory with
        conversation_history := memory.conversation_history ++
          [⟨state.user_query, final_answer.final_answer, agent_outputs.map Prod.fst⟩]
        previous_questions := memory.previous_questions ++ [state.user_query] }
  let memory :=
    match alookup "theory" agent_outputs with
    | some (AgentOutput.theory theory_output) =>
      { memory with learned_topics := memory.learned_topics ++ theory_output.key_concepts }
    | _ => memory
  let react_thought : ReActThought :=
    ⟨"Combining all agent outputs", "Synthesize final answer",
      some ("Created comprehensive response from " ++ toString agent_outputs.length
        ++ " agent outputs")⟩
  { state with
      final_answer := some final_answer
      session_memory := memory
      react_chain := state.react_chain ++ [react_thought]
      execution_log := state.execution_log ++ ["OK: Synthesizer"] }

/-- `route_to_agents`: conditional routing after the router (and again after
the memory retriever).  Absent or unrecognized classification falls back to
the synthesizer. -/
def route_to_agents (state : GraphState) : String :=
  match state.classification with
  | none => "synthesizer"
  | some c =>
    if c.query_type = "theory" then "theory_explainer"
    else if c.query_type = "design" then "design_advisor"
    else if c.query_type = "code" then "code_helper"
    else if c.query_type = "planning" then "planner"
    else "synthesizer"

/-- External collaborators of one compiled-graph run: the decoder outcome for
each node that may call the structured decoder, the three tools, the notes
file contents, and the tool-name regex. -/
structure RunEnv where
  routerDecode : Except String QueryClassification
  theoryDecode : Except String TheoryExplanation
  designDecode : Except String DesignAdvice
  codeDecode : Except String CodeSolution
  planDecode : Except String PlanOutput
  query_knowledge_base : String → String
  execute_python : String → String
  save_to_notes : String → String
  notes : String
  toolNameOf : String → Option String

/-- One invocation of the compiled graph of `build_graph` (src/graph.py):
START → router → (conditional: specialists go through memory_retriever, then
the conditional again) → specialist → synthesizer → END.  Returns the final
state together with the list of executed node names. -/
def run_graph (env : RunEnv) (state : GraphState) : GraphState × List String :=
  let s1 := router_node env.routerDecode state
  let dest1 := route_to_agents s1
  if dest1 = "synthesizer" then
    (synthesizer_node env.toolNameOf s1, ["router", "synthesizer"])
  else
    let s2 := memory_retriever_node env.notes s1
    let dest2 := route_to_agents s2
    if dest2 = "theory_explainer" then
      (synthesizer_node env.toolNameOf
        (theory_explainer_node env.theoryDecode env.query_knowledge_base s2),
       ["router", "memory_retriever", "theory_explainer", "synthesizer"])
    else if dest2 = "design_advisor" then
      (synthesizer_node env.toolNameOf (design_advisor_node env.designDecode s2),
       ["router", "memory_retriever", "design_advisor", "synthesizer"])
    else if dest2 = "code_helper" then
      (synthesizer_node env.toolNameOf
        (code_helper_node env.codeDecode env.execute_python s2),
       ["router", "memory_retriever", "code_helper", "synthesizer"])
    else if dest2 = "planner" then
      (synthesizer_node env.toolNameOf
        (planner_node env.planDecode env.save_to_notes s2),
       ["router", "memory_retriever", "planner", "synthesizer"])
    else
      (synthesizer_node env.toolNameOf s2, ["router", "memory_retriever", "synthesizer"])

/-! ## Association-list lemmas -/

theorem alookup_aupsert_self {α : Type} (k : String) (v : α) (l : List (String × α)) :
    alookup k (aupsert k v l) = some v := by
  induction l with
  | nil => simp [aupsert, alookup]
  | cons p rest ih =>
    obtain ⟨k', v'⟩ := p
    by_cases h : k' = k
    · simp [aupsert, alookup, h]
    · simp [aupsert, alookup, h, ih]

theorem alookup_aupsert_ne {α : Type} {k₂ k : String} (v : α) (l : List (String × α))
    (h : k₂ ≠ k) : alookup k₂ (aupsert k v l) = alookup k₂ l := by
  induction l with
  | nil => simp [aupsert, alookup, Ne.symm h]
  | cons p rest ih =>
    obtain ⟨k', v'⟩ := p
    by_cases hk : k' = k
    · subst hk
      simp [aupsert, alookup, Ne.symm h]
    · simp only [aupsert, if_neg hk]
      by_cases hk₂ : k' = k₂ <;> simp [alookup, hk₂, ih]

theorem aupsert_of_not_mem {α : Type} (k : String) (v : α) (l : List (String × α))
    (h : k ∉ l.map Prod.fst) : aupsert k v l = l ++ [(k, v)] := by
  induction l with
  | nil => simp [aupsert]
  | cons p rest ih =>
    obtain ⟨k', v'⟩ := p
    simp only [List.map_cons, List.mem_cons, not_or] at h
    simp [aupsert, Ne.symm h.1, ih h.2]

theorem length_aupsert_mem {α : Type} (k : String) (v : α) (l : List (String × α))
    (h : k ∈ l.map Prod.fst) : (aupsert k v l).length = l.length := by
  induction l with
  | nil => simp at h
  | cons p rest ih =>
    obtain ⟨k', v'⟩ := p
    by_cases hk : k' = k
    · simp [aupsert, hk]
    · simp only [List.map_cons, List.mem_cons] at h
      rcases h with h | h


      · exact absurd h.symm hk
      · simp [aupsert, hk, ih h]

theorem length_aupsert_le {α : Type} (k : String) (v : α) (l : List (String × α)) :
    (aupsert k v l).length ≤ l.length + 1 := by
  induction l with
  | nil => simp [aupsert]
  | cons p rest ih =>
    obtain ⟨k', v'⟩ := p
    by_cases hk : k' = k <;> simp [aupsert, hk] <;> omega

theorem alookup_aerase_ne {α : Type} {k₂ k : String} (l : List (String × α))
    (h : k₂ ≠ k) : alookup k₂ (aerase k l) = alookup k₂ l := by
  induction l with
  | nil => simp [aerase]
  | cons p rest ih =>
    obtain ⟨k', v'⟩ := p
    by_cases hk : k' = k
    · subst hk
      simp [aerase, alookup, Ne.symm h]
    · simp only [aerase, if_neg hk]
      by_cases hk₂ : k' = k₂ <;> simp [alookup, hk₂, ih]

theorem alookup_eq_none_of_not_mem {α : Type} (k : String) (l : List (String × α))
    (h : k ∉ l.map Prod.fst) : alookup k l = none := by
  induction l with
  | nil => simp [alookup]
  | cons p rest ih =>
    obtain ⟨k', v'⟩ := p
    simp only [List.map_cons, List.mem_cons, not_or] at h
    simp [alookup, Ne.symm h.1, ih h.2]

theorem alookup_isSome_of_mem {α : Type} {k : String} {v : α} {l : List (String × α)}
    (h : (k, v) ∈ l) : (alookup k l).isSome := by
  induction l with
  | nil => simp at h
  | cons p rest ih =>
    obtain ⟨k', v'⟩ := p
    rcases List.mem_cons.mp h with h | h
    · cases h
      simp [alookup]
    · by_cases hk : k' = k <;> simp [alookup, hk, ih h]

theorem alookup_aerase_self_of_nodup {α : Type} (k : String) (l : List (String × α))
    (h : (l.map Prod.fst).Nodup) : alookup k (aerase k l) = none := by
  induction l with
  | nil => simp [aerase, alookup]
  | cons p rest ih =>
    obtain ⟨k', v'⟩ := p
    simp only [List.map_cons, List.nodup_cons] at h
    by_cases hk : k' = k
    · subst hk
      simp only [aerase, if_pos rfl]
      exact alookup_eq_none_of_not_mem _ _ h.1
    · simp [aerase, hk, alookup, ih h.2]

theorem length_aerase_mem {α : Type} (k : String) (l : List (String × α))
    (h : k ∈ l.map Prod.fst) : (aerase k l).length + 1 = l.length := by
  induction l with
  | nil => simp at h
  | cons p rest ih =>
    obtain ⟨k', v'⟩ := p
    by_cases hk : k' = k
    · simp [aerase, hk]
    · simp only [List.map_cons, List.mem_cons] at h
      rcases h with h | h
      · exact absurd h.symm hk
      · simp [aerase, hk, ← ih h]

theorem mem_fst_of_mem_fst_aerase {α : Type} {k₂ k : String} {l : List (String × α)}
    (h : k₂ ∈ (aerase k l).map Prod.fst) : k₂ ∈ l.map Prod.fst := by
  induction l with
  | nil => simpa [aerase] using h
  | cons p rest ih =>
    obtain ⟨k', v'⟩ := p
    by_cases hk : k' = k
    · simp only [aerase, if_pos hk] at h
      simp [h]
    · simp only [aerase, if_neg hk, List.map_cons, List.mem_cons] at h ⊢
      rcases h with h | h
      · exact Or.inl h
      · exact Or.inr (ih h)

theorem nodup_aerase {α : Type} (k : String) (l : List (String × α))
    (h : (l.map Prod.fst).Nodup) : ((aerase k l).map Prod.fst).Nodup := by
  induction l with
  | nil => simp [aerase]
  | cons p rest ih =>
    obtain ⟨k', v'⟩ := p
    simp only [List.map_cons, List.nodup_cons] at h
    by_cases hk : k' = k
    · simp [aerase, hk, h.2]
    · simp only [aerase, if_neg hk, List.map_cons, List.nodup_cons]
      exact ⟨fun hm => h.1 (mem_fst_of_mem_fst_aerase hm), ih h.2⟩


theorem mem_fst_of_mem_fst_aupsert {α : Type} {k₂ k : String} {v : α}
    {l : List (String × α)} (h : k₂ ∈ (aupsert k v l).map Prod.fst) :
    k₂ ∈ l.map Prod.fst ∨ k₂ = k := by
  induction l with
  | nil =>
    simp only [aupsert, List.map_cons, List.map_nil, List.mem_singleton] at h
    exact Or.inr h
  | cons p rest ih =>
    obtain ⟨k', v'⟩ := p
    by_cases hk : k' = k
    · simp only [aupsert, if_pos hk, List.map_cons, List.mem_cons] at h
      rcases h with h | h
      · exact Or.inl (by simp [h])
      · exact Or.inl (by simp [h])
    · simp only [aupsert, if_neg hk, List.map_cons, List.mem_cons] at h
      rcases h with h | h
      · exact Or.inl (by simp [h])
      · rcases ih h with h' | h'
        · exact Or.inl (by simp [h'])
        · exact Or.inr h'

theorem nodup_aupsert {α : Type} (k : String) (v : α) (l : List (String × α))
    (h : (l.map Prod.fst).Nodup) : ((aupsert k v l).map Prod.fst).Nodup := by
  induction l with
  | nil => simp [aupsert]
  | cons p rest ih =>
    obtain ⟨k', v'⟩ := p
    simp only [List.map_cons, List.nodup_cons] at h
    by_cases hk : k' = k
    · simp only [aupsert, if_pos hk, List.map_cons, List.nodup_cons]
      exact ⟨h.1, h.2⟩
    · simp only [aupsert, if_neg hk, List.map_cons, List.nodup_cons]
      refine ⟨fun hm => ?_, ih h.2⟩
      rcases mem_fst_of_mem_fst_aupsert hm with h' | h'
      · exact h.1 h'
      · exact hk h'

/-! ## Oldest-entry lemmas -/

theorem minByTimestamp_mem {ρ : Type} (p : String × CacheEntry ρ)
    (l : List (String × CacheEntry ρ)) : minByTimestamp p l ∈ p :: l := by
  induction l generalizing p with
  | nil => simp [minByTimestamp]
  | cons q rest ih =>
    simp only [minByTimestamp]
    by_cases hc : q.2.timestamp < p.2.timestamp
    · rw [if_pos hc]
      exact List.mem_cons_of_mem p (ih q)
    · rw [if_neg hc]
      rcases List.mem_cons.mp (ih p) with h | h
      · rw [h]
        exact List.mem_cons_self _ _
      · exact List.mem_cons_of_mem _ (List.mem_cons_of_mem _ h)

theorem minByTimestamp_le {ρ : Type} (p : String × CacheEntry ρ)
    (l : List (String × CacheEntry ρ)) :
    ∀ q ∈ p :: l, (minByTimestamp p l).2.timestamp ≤ q.2.timestamp := by
  induction l generalizing p with
  | nil =>
    intro q hq
    rcases List.mem_cons.mp hq with h | h
    · subst h
      simp [minByTimestamp]
    · simp at h
  | cons r rest ih =>
    intro q hq
    simp only [minByTimestamp]
    have hle : (if r.2.timestamp < p.2.timestamp then r else p).2.timestamp ≤ p.2.timestamp ∧
        (if r.2.timestamp < p.2.timestamp then r else p).2.timestamp ≤ r.2.timestamp := by
      by_cases hc : r.2.timestamp < p.2.timestamp
      · simp only [if_pos hc]
        omega
      · simp only [if_neg hc]
        omega
    rcases List.mem_cons.mp hq with h | h
    · subst h
      exact le_trans (ih _ _ (List.mem_cons_self _ _)) hle.1
    · rcases List.mem_cons.mp h with h' | h'
      · subst h'
        exact le_trans (ih _ _ (List.mem_cons_self _ _)) hle.2
      · exact ih _ _ (List.mem_cons_of_mem _ h')

theorem oldestEntry?_mem {ρ : Type} {l : List (String × CacheEntry ρ)}
    {p : String × CacheEntry ρ} (h : oldestEntry? l = some p) : p ∈ l := by
  cases l with
  | nil => simp [oldestEntry?] at h
  | cons x rest =>
    simp only [oldestEntry?, Option.some.injEq] at h
    exact h ▸ minByTimestamp_mem x rest

theorem oldestEntry?_le {ρ : Type} {l : List (String × CacheEntry ρ)}
    {p : String × CacheEntry ρ} (h : oldestEntry? l = some p) :
    ∀ q ∈ l, p.2.timestamp ≤ q.2.timestamp := by
  cases l with
  | nil => simp [oldestEntry?] at h
  | cons x rest =>
    simp only [oldestEntry?, Option.some.injEq] at h
    exact h ▸ minByTimestamp_le x rest

theorem oldestEntry?_isSome {ρ : Type} {l : List (String × CacheEntry ρ)}
    (h : l ≠ []) : ∃ p, oldestEntry? l = some p := by
  cases l with
  | nil => exact absurd rfl h
  | cons x rest => exact ⟨minByTimestamp x rest, rfl⟩

/-! ## Cache facts -/

theorem nodup_put_cache {ρ : Type} (c : QueryCache ρ) (q : String) (r : ρ) (et t : Nat)
    (hnd : (c.cache.map Prod.fst).Nodup) :
    (((c.put q r et t).cache).map Prod.fst).Nodup := by
  simp only [QueryCache.put]
  apply nodup_aupsert
  by_cases hcap : c.max_size ≤ c.cache.length
  · simp only [if_pos hcap]
    cases hor : oldestEntry? c.cache with
    | none => exact hnd
    | some o => exact nodup_aerase _ _ hnd
  · simp only [if_neg hcap]
    exact hnd

theorem alookup_put_cache_self {ρ : Type} (c : QueryCache ρ) (q : String) (r : ρ)
    (et t : Nat) :
    alookup (get_hash q) (c.put q r et t).cache =
      some ⟨q, r, et, t, t + c.ttl⟩ := by
  simp only [QueryCache.put]
  exact alookup_aupsert_self _ _ _

/-! ## Claim C2 — cache TTL boundary -/

/-- C2, counterexample to the claim as stated: an entry inserted at `T = 0`
with TTL `Δ = 5` is still returned (present) by `get` at exactly `T + Δ = 5`,
because the expiry test in the source is strict (`datetime.now() > expires`);
the claim requires absence at `T + Δ`. -/
theorem cache_ttl_claim_counterexample :
    (((QueryCache.empty Nat 10 5).put "q" 42 1 0).get "q" 5).1 = some 42 := by
  decide

/-- C2 (amended): an entry inserted by `put` at time `T` with TTL `Δ` is
returned by an immediately following `get` on the same case-folded,
whitespace-trimmed query (counted as a hit) at any time in the closed interval
`[T, T + Δ]`; at any time strictly after `T + Δ` the `get` returns absent,
evicts the entry, and counts the access as a miss (lazy expiry). -/
theorem cache_ttl_boundary {ρ : Type} (c : QueryCache ρ) (q : String) (r : ρ)
    (et t now : Nat) (hnd : (c.cache.map Prod.fst).Nodup) :
    (now ≤ t + c.ttl →
       (((c.put q r et t).get q now).1 = some r ∧
        ((c.put q r et t).get q now).2.hits = c.hits + 1)) ∧
    (t + c.ttl < now →
       (((c.put q r et t).get q now).1 = none ∧
        ((c.put q r et t).get q now).2.misses = c.misses + 1 ∧
        alookup (get_hash q) ((c.put q r et t).get q now).2.cache = none)) := by
  have hl := alookup_put_cache_self c q r et t
  constructor
  · intro hnow
    constructor
    · simp [QueryCache.get, hl, Nat.not_lt.mpr hnow]
    · have hhits : ((c.put q r et t).get q now).2.hits = (c.put q r et t).hits + 1 := by
        simp [QueryCache.get, hl, Nat.not_lt.mpr hnow]
      rw [hhits]
      simp [QueryCache.put]
  · intro hnow
    have hnd' := nodup_put_cache c q r et t hnd
    refine ⟨?_, ?_, ?_⟩
    · simp [QueryCache.get, hl, hnow]
    · have hmiss : ((c.put q r et t).get q now).2.misses = (c.put q r et t).misses + 1 := by
        simp [QueryCache.get, hl, hnow]
      rw [hmiss]
      simp [QueryCache.put]
    · simp only [QueryCache.get, hl]
      simp only [show (⟨q, r, et, t, t + c.ttl⟩ : CacheEntry ρ).expires = t + c.ttl from rfl,
        if_pos hnow]
      exact alookup_aerase_self_of_nodup _ _ hnd'

/-- C2 witness: with an initially empty cache (`maxSize = 10`, `Δ = 5`) and an
entry inserted at `T = 0`, `get` at `now = 3` is a hit returning the stored
result, and `get` at `now = 9` is a miss that evicts the entry. -/
theorem cache_ttl_boundary_witness :
    ((((QueryCache.empty Nat 10 5).put "q" 42 1 0).get "q" 3).1 = some 42 ∧
     (((QueryCache.empty Nat 10 5).put "q" 42 1 0).get "q" 3).2.hits = 0 + 1) ∧
    ((((QueryCache.empty Nat 10 5).put "q" 42 1 0).get "q" 9).1 = none ∧
     (((QueryCache.empty Nat 10 5).put "q" 42 1 0).get "q" 9).2.misses = 0 + 1 ∧
     alookup (get_hash "q")
       (((QueryCache.empty Nat 10 5).put "q" 42 1 0).get "q" 9).2.cache = none) :=
  ⟨(cache_ttl_boundary (QueryCache.empty Nat 10 5) "q" 42 1 0 3 (by decide)).1 (by decide),
   (cache_ttl_boundary (QueryCache.empty Nat 10 5) "q" 42 1 0 9 (by decide)).2 (by decide)⟩

theorem alookup_isSome_of_mem_fst {α : Type} {k : String} {l : List (String × α)}
    (h : k ∈ l.map Prod.fst) : ∃ v, alookup k l = some v := by
  induction l with
  | nil => simp at h
  | cons p rest ih =>
    obtain ⟨k', v'⟩ := p
    by_cases hk : k' = k
    · exact ⟨v', by simp [alookup, hk]⟩
    · simp only [List.map_cons, List.mem_cons] at h
      rcases h with h | h
      · exact absurd h.symm hk
      · obtain ⟨v, hv⟩ := ih h
        exact ⟨v, by simp [alookup, hk, hv]⟩

theorem mem_fst_aerase_of_ne {α : Type} {k k' : String} {l : List (String × α)}
    (h : k ∈ l.map Prod.fst) (hne : k ≠ k') : k ∈ (aerase k' l).map Prod.fst := by
  obtain ⟨v, hv⟩ := alookup_isSome_of_mem_fst h
  have : alookup k (aerase k' l) = some v := (alookup_aerase_ne l hne).trans hv
  by_contra hmem
  rw [alookup_eq_none_of_not_mem k _ hmem] at this
  exact Option.noConfusion this

theorem put_cache_at_capacity {ρ : Type} (c : QueryCache ρ) (q : String) (r : ρ)
    (et t : Nat) (p : String × CacheEntry ρ)
    (hcap : c.max_size ≤ c.cache.length) (hold : oldestEntry? c.cache = some p) :
    (c.put q r et t).cache =
      aupsert (get_hash q) ⟨q, r, et, t, t + c.ttl⟩ (aerase p.1 c.cache) := by
  simp [QueryCache.put, if_pos hcap, hold]

theorem put_cache_below_capacity {ρ : Type} (c : QueryCache ρ) (q : String) (r : ρ)
    (et t : Nat) (hcap : ¬ c.max_size ≤ c.cache.length) :
    (c.put q r et t).cache =
      aupsert (get_hash q) ⟨q, r, et, t, t + c.ttl⟩ c.cache := by
  simp [QueryCache.put, if_neg hcap]

/-! ## Claim C8 — updating a cached query at capacity -/

/-- C8: when the cache holds exactly `maxSize` entries, one of them already
has the fingerprint of `q`, and the entry with the smallest timestamp has a
different fingerprint, `put(q, r, t)` evicts that oldest unrelated entry and
overwrites the existing entry for `q` in place, leaving `maxSize - 1` live
entries (stated as `length + 1 = maxSize` to avoid truncated subtraction). -/
theorem put_update_at_capacity_drops_oldest {ρ : Type} (c : QueryCache ρ)
    (q : String) (r : ρ) (et t : Nat) (p : String × CacheEntry ρ)
    (hnd : (c.cache.map Prod.fst).Nodup)
    (hfull : c.cache.length = c.max_size)
    (hms : 1 ≤ c.max_size)
    (hold : oldestEntry? c.cache = some p)
    (hne : p.1 ≠ get_hash q)
    (hmem : get_hash q ∈ c.cache.map Prod.fst) :
    (c.put q r et t).cache.length + 1 = c.max_size ∧
    alookup (get_hash q) (c.put q r et t).cache = some ⟨q, r, et, t, t + c.ttl⟩ ∧
    alookup p.1 (c.put q r et t).cache = none := by
  have hcap : c.max_size ≤ c.cache.length := hfull.ge
  have hput := put_cache_at_capacity c q r et t p hcap hold
  have hpmem : p.1 ∈ c.cache.map Prod.fst :=
    List.mem_map_of_mem Prod.fst (oldestEntry?_mem hold)
  have herase : (aerase p.1 c.cache).length + 1 = c.cache.length :=
    length_aerase_mem _ _ hpmem
  have hmem' : get_hash q ∈ (aerase p.1 c.cache).map Prod.fst :=
    mem_fst_aerase_of_ne hmem (Ne.symm hne)
  refine ⟨?_, ?_, ?_⟩
  · rw [hput, length_aupsert_mem _ _ _ hmem']
    omega
  · exact alookup_put_cache_self c q r et t
  · rw [hput, alookup_aupsert_ne _ _ hne]
    exact alookup_aerase_self_of_nodup _ _ hnd

/-- C8 witness: a capacity-2 cache holding fingerprints `a` (older) and `b`;
`put` of a new result for `b` evicts `a` and overwrites `b`, leaving one
entry. -/
theorem put_update_at_capacity_drops_oldest_witness :
    ((applyPuts (QueryCache.empty Nat 2 99)
        [("a", 0, 1, 0), ("b", 1, 1, 1)]).put "b" 7 1 5).cache.length + 1 = 2 ∧
    alookup (get_hash "b")
      ((applyPuts (QueryCache.empty Nat 2 99)
        [("a", 0, 1, 0), ("b", 1, 1, 1)]).put "b" 7 1 5).cache =
      some ⟨"b", 7, 1, 5, 104⟩ ∧
    alookup "a"
      ((applyPuts (QueryCache.empty Nat 2 99)
        [("a", 0, 1, 0), ("b", 1, 1, 1)]).put "b" 7 1 5).cache = none :=
  put_update_at_capacity_drops_oldest
    (applyPuts (QueryCache.empty Nat 2 99) [("a", 0, 1, 0), ("b", 1, 1, 1)])
    "b" 7 1 5 ("a", ⟨"a", 0, 1, 0, 99⟩)
    (by decide) (by decide) (by decide) (by decide) (by decide) (by decide)

theorem alookup_append_of_none {α : Type} {k : String} {l1 : List (String × α)}
    (l2 : List (String × α)) (h : alookup k l1 = none) :
    alookup k (l1 ++ l2) = alookup k l2 := by
  induction l1 with
  | nil => rfl
  | cons p rest ih =>
    obtain ⟨k', v'⟩ := p
    by_cases hk : k' = k
    · simp [alookup, hk] at h
    · simp only [List.cons_append, alookup, if_neg hk] at h ⊢
      exact ih h

theorem alookup_append_of_some {α : Type} {k : String} {l1 : List (String × α)}
    {v : α} (l2 : List (String × α)) (h : alookup k l1 = some v) :
    alookup k (l1 ++ l2) = some v := by
  induction l1 with
  | nil => simp [alookup] at h
  | cons p rest ih =>
    obtain ⟨k', v'⟩ := p
    by_cases hk : k' = k
    · simp only [alookup, if_pos hk] at h
      simp [alookup, hk, h]
    · simp only [List.cons_append, alookup, if_neg hk] at h ⊢
      exact ih h

theorem applyPuts_append {ρ : Type} (c : QueryCache ρ)
    (l1 l2 : List (String × ρ × Nat × Nat)) :
    applyPuts c (l1 ++ l2) = applyPuts (applyPuts c l1) l2 := by
  induction l1 generalizing c with
  | nil => rfl
  | cons it rest ih =>
    obtain ⟨q, r, et, t⟩ := it
    simp only [List.cons_append, applyPuts]
    exact ih _

theorem applyPuts_max_size {ρ : Type} (items : List (String × ρ × Nat × Nat))
    (c : QueryCache ρ) : (applyPuts c items).max_size = c.max_size := by
  induction items generalizing c with
  | nil => rfl
  | cons it rest ih =>
    obtain ⟨q, r, et, t⟩ := it
    simp only [applyPuts]
    rw [ih]
    rfl

theorem put_length_le {ρ : Type} (c : QueryCache ρ) (q : String) (r : ρ) (et t : Nat)
    (hms : 1 ≤ c.max_size) (h : c.cache.length ≤ c.max_size) :
    (c.put q r et t).cache.length ≤ c.max_size := by
  by_cases hcap : c.max_size ≤ c.cache.length
  · have hlen : c.cache.length = c.max_size := le_antisymm h hcap
    have hnil : c.cache ≠ [] := by
      intro hh
      rw [hh] at hlen
      simp only [List.length_nil] at hlen
      omega
    obtain ⟨p, hp⟩ := oldestEntry?_isSome hnil
    rw [put_cache_at_capacity c q r et t p hcap hp]
    have h1 := length_aerase_mem p.1 c.cache
      (List.mem_map_of_mem Prod.fst (oldestEntry?_mem hp))
    have h2 := length_aupsert_le (get_hash q)
      (⟨q, r, et, t, t + c.ttl⟩ : CacheEntry ρ) (aerase p.1 c.cache)
    omega
  · rw [put_cache_below_capacity c q r et t hcap]
    have h2 := length_aupsert_le (get_hash q)
      (⟨q, r, et, t, t + c.ttl⟩ : CacheEntry ρ) c.cache
    omega

theorem applyPuts_length_le {ρ : Type} (items : List (String × ρ × Nat × Nat))
    (c : QueryCache ρ) (hms : 1 ≤ c.max_size) (h : c.cache.length ≤ c.max_size) :
    (applyPuts c items).cache.length ≤ c.max_size := by
  induction items generalizing c with
  | nil => exact h
  | cons it rest ih =>
    obtain ⟨q, r, et, t⟩ := it
    simp only [applyPuts]
    exact ih (c.put q r et t) hms (put_length_le c q r et t hms h)

/-- The dict entry written by one `put` call (fingerprint and stored value). -/
def putEntry {ρ : Type} (ttl : Nat) (it : String × ρ × Nat × Nat) :
    String × CacheEntry ρ :=
  (get_hash it.1, ⟨it.1, it.2.1, it.2.2.1, it.2.2.2, it.2.2.2 + ttl⟩)

theorem applyPuts_fresh {ρ : Type} (items : List (String × ρ × Nat × Nat))
    (c : QueryCache ρ)
    (hfresh : ∀ it ∈ items, get_hash it.1 ∉ c.cache.map Prod.fst)
    (hnd : (items.map (fun it => get_hash it.1)).Nodup)
    (hlen : c.cache.length + items.length ≤ c.max_size) :
    (applyPuts c items).cache = c.cache ++ items.map (putEntry c.ttl) := by
  induction items generalizing c with
  | nil => simp [applyPuts]
  | cons it rest ih =>
    obtain ⟨q, r, et, t⟩ := it
    have hcap : ¬ c.max_size ≤ c.cache.length := by
      simp only [List.length_cons] at hlen
      omega
    have hq : get_hash q ∉ c.cache.map Prod.fst :=
      hfresh _ (List.mem_cons_self _ _)
    have hput : (c.put q r et t).cache = c.cache ++ [putEntry c.ttl (q, r, et, t)] := by
      rw [put_cache_below_capacity c q r et t hcap, aupsert_of_not_mem _ _ _ hq]
      rfl
    simp only [applyPuts]
    rw [ih (c.put q r et t) ?_ ?_ ?_]
    · rw [hput]
      have httl : (c.put q r et t).ttl = c.ttl := rfl
      rw [httl]
      simp [List.append_assoc]
    · intro it' hm
      rw [hput]
      simp only [List.map_append, List.mem_append, not_or]
      refine ⟨hfresh _ (List.mem_cons_of_mem _ hm), ?_⟩
      simp only [List.map_cons, List.nodup_cons] at hnd
      intro hmem
      simp only [putEntry, List.map_cons, List.map_nil, List.mem_singleton] at hmem
      exact hnd.1 (hmem ▸ List.mem_map_of_mem (fun it => get_hash it.1) hm)
    · exact (List.nodup_cons.mp hnd).2
    · rw [hput, List.length_append]
      have hms2 : (c.put q r et t).max_size = c.max_size := rfl
      rw [hms2]
      simp only [List.length_cons] at hlen
      simp only [List.length_singleton]
      omega

/-! ## Claim C5 — cache capacity and oldest-entry eviction -/

/-- C5: starting from an empty cache with capacity `maxSize ≥ 1`, inserting
`maxSize + 1` queries with pairwise distinct fingerprints via `put` leaves
exactly `maxSize` live entries; after every prefix of the inserts the cache
holds at most `maxSize` entries; and the entry evicted by the last insert is
one with the smallest `createdAt` timestamp among those present before that
insert — it is gone afterwards, while every other pre-existing fingerprint is
still present. -/
theorem cache_capacity_eviction {ρ : Type} (maxSize ttl : Nat)
    (items : List (String × ρ × Nat × Nat))
    (hms : 1 ≤ maxSize)
    (hlen : items.length = maxSize + 1)
    (hdist : (items.map (fun it => get_hash it.1)).Nodup) :
    (applyPuts (QueryCache.empty ρ maxSize ttl) items).cache.length = maxSize ∧
    (∀ n : Nat,
      (applyPuts (QueryCache.empty ρ maxSize ttl) (items.take n)).cache.length ≤ maxSize) ∧
    ∃ p, p ∈ (applyPuts (QueryCache.empty ρ maxSize ttl) items.dropLast).cache ∧
      (∀ q ∈ (applyPuts (QueryCache.empty ρ maxSize ttl) items.dropLast).cache,
        p.2.timestamp ≤ q.2.timestamp) ∧
      alookup p.1 (applyPuts (QueryCache.empty ρ maxSize ttl) items).cache = none ∧
      (∀ q ∈ (applyPuts (QueryCache.empty ρ maxSize ttl) items.dropLast).cache,
        q.1 ≠ p.1 →
        alookup q.1 (applyPuts (QueryCache.empty ρ maxSize ttl) items).cache ≠ none) := by
  have hne : items ≠ [] := by
    intro h
    rw [h] at hlen
    simp at hlen
  have hdl_len : items.dropLast.length = maxSize := by
    rw [List.length_dropLast, hlen]
    rfl
  have hdl_nodup : (items.dropLast.map (fun it => get_hash it.1)).Nodup :=
    ((List.dropLast_sublist items).map _).nodup hdist
  have hpre : (applyPuts (QueryCache.empty ρ maxSize ttl) items.dropLast).cache =
      items.dropLast.map (putEntry ttl) := by
    have h0 := applyPuts_fresh items.dropLast (QueryCache.empty ρ maxSize ttl)
      (fun it _ => by simp [QueryCache.empty]) hdl_nodup
      (by simp [QueryCache.empty, hdl_len])
    simpa [QueryCache.empty] using h0
  have hpre_len :
      (applyPuts (QueryCache.empty ρ maxSize ttl) items.dropLast).cache.length = maxSize := by
    rw [hpre, List.length_map, hdl_len]
  have hms_eq :
      (applyPuts (QueryCache.empty ρ maxSize ttl) items.dropLast).max_size = maxSize :=
    applyPuts_max_size _ _
  have hkeys :
      (applyPuts (QueryCache.empty ρ maxSize ttl) items.dropLast).cache.map Prod.fst =
        items.dropLast.map (fun it => get_hash it.1) := by
    rw [hpre, List.map_map]
    rfl
  have hkeys_nodup :
      ((applyPuts (QueryCache.empty ρ maxSize ttl) items.dropLast).cache.map Prod.fst).Nodup := by
    rw [hkeys]
    exact hdl_nodup
  obtain ⟨lq, lr, le', lt, hL⟩ :
      ∃ a b c' d, items.getLast hne = (a, b, c', d) := ⟨_, _, _, _, rfl⟩
  have hsplit : items = items.dropLast ++ [items.getLast hne] :=
    (List.dropLast_append_getLast hne).symm
  have hcap :
      (applyPuts (QueryCache.empty ρ maxSize ttl) items.dropLast).max_size ≤
        (applyPuts (QueryCache.empty ρ maxSize ttl) items.dropLast).cache.length := by
    rw [hms_eq, hpre_len]
  have hnonnil : (applyPuts (QueryCache.empty ρ maxSize ttl) items.dropLast).cache ≠ [] := by
    intro h
    rw [h] at hpre_len
    simp only [List.length_nil] at hpre_len
    omega
  obtain ⟨p, hp⟩ := oldestEntry?_isSome hnonnil
  have hpmem := oldestEntry?_mem hp
  have hppkey : p.1 ∈
      (applyPuts (QueryCache.empty ρ maxSize ttl) items.dropLast).cache.map Prod.fst :=
    List.mem_map_of_mem Prod.fst hpmem
  have hlast_hash : get_hash lq ∉
      (applyPuts (QueryCache.empty ρ maxSize ttl) items.dropLast).cache.map Prod.fst := by
    rw [hkeys]
    have h2 : (items.dropLast.map (fun it => get_hash it.1) ++ [get_hash lq]).Nodup := by
      have := hdist
      rw [hsplit, List.map_append, hL] at this
      simpa using this
    intro hmem
    rcases List.nodup_append.mp h2 with ⟨_, _, hdisj⟩
    exact hdisj hmem (List.mem_singleton.mpr rfl)
  have hfresh_erased : get_hash lq ∉
      (aerase p.1 (applyPuts (QueryCache.empty ρ maxSize ttl) items.dropLast).cache).map
        Prod.fst :=
    fun hm => hlast_hash (mem_fst_of_mem_fst_aerase hm)
  have hfull_cache : (applyPuts (QueryCache.empty ρ maxSize ttl) items).cache =
      aerase p.1 (applyPuts (QueryCache.empty ρ maxSize ttl) items.dropLast).cache ++
        [(get_hash lq,
          ⟨lq, lr, le', lt,
            lt + (applyPuts (QueryCache.empty ρ maxSize ttl) items.dropLast).ttl⟩)] := by
    conv_lhs => rw [hsplit]
    rw [applyPuts_append, hL]
    simp only [applyPuts]
    rw [put_cache_at_capacity _ _ _ _ _ p hcap hp,
      aupsert_of_not_mem _ _ _ hfresh_erased]
  have herase := length_aerase_mem p.1
    (applyPuts (QueryCache.empty ρ maxSize ttl) items.dropLast).cache hppkey
  refine ⟨?_, ?_, p, hpmem, oldestEntry?_le hp, ?_, ?_⟩
  · rw [hfull_cache, List.length_append, List.length_singleton]
    omega
  · intro n
    exact applyPuts_length_le (items.take n) (QueryCache.empty ρ maxSize ttl) hms
      (by simp [QueryCache.empty])
  · rw [hfull_cache]
    rw [alookup_append_of_none _ (alookup_aerase_self_of_nodup _ _ hkeys_nodup)]
    have hnep : p.1 ≠ get_hash lq := fun heq => hlast_hash (heq ▸ hppkey)
    simp [alookup, Ne.symm hnep]
  · intro q' hq' hqp
    obtain ⟨v, hv⟩ := alookup_isSome_of_mem_fst (List.mem_map_of_mem Prod.fst hq')
    have h1 : alookup q'.1
        (aerase p.1 (applyPuts (QueryCache.empty ρ maxSize ttl) items.dropLast).cache) =
        some v := (alookup_aerase_ne _ hqp).trans hv
    rw [hfull_cache, alookup_append_of_some _ h1]
    exact Option.noConfusion

/-- C5 witness: capacity 2, three inserts with distinct fingerprints `a`, `b`,
`c`; two entries remain, every prefix stays within capacity, and the oldest
entry (`a`) is the one evicted. -/
theorem cache_capacity_eviction_witness :
    (applyPuts (QueryCache.empty Nat 2 99)
      [("a", 0, 1, 0), ("b", 1, 1, 1), ("c", 2, 1, 2)]).cache.length = 2 :=
  (cache_capacity_eviction 2 99 [("a", 0, 1, 0), ("b", 1, 1, 1), ("c", 2, 1, 2)]
    (by decide) (by decide) (by decide)).1

/-! ## Levenshtein DP bounds

Row invariant: after processing `i` characters of `s1`, the DP row entry at
column `k` is the edit distance of the length-`i` and length-`k` prefixes,
which never exceeds `max i k`.  Only the upper bound is needed here. -/

theorem levRowAux_spec (c1 : Char) (cs : List Char) :
    ∀ (prev : List Nat) (cur i j : Nat),
    prev.length = cs.length + 1 →
    cur ≤ max (i + 1) j →
    (∀ k, k < prev.length → prev.getD k 0 ≤ max i (j + k)) →
    (levRowAux c1 cur prev cs).length = cs.length ∧
    (∀ k, k < cs.length → (levRowAux c1 cur prev cs).getD k 0 ≤ max (i + 1) (j + 1 + k)) := by
  induction cs with
  | nil =>
    intro prev cur i j hl hc hp
    refine ⟨?_, fun k hk => by simp at hk⟩
    match prev with
    | [] => rfl
    | [a] => rfl
    | a :: b :: r => rfl
  | cons c2 crest ih =>
    intro prev cur i j hl hc hp
    match prev, hl with
    | pj :: pj1 :: prest, hl =>
      have hl' : prest.length = crest.length := by
        simpa using hl
      have hpj : pj ≤ max i j := by
        have := hp 0 (by simp)
        simpa using this
      have hpj1 : pj1 ≤ max i (j + 1) := by
        have := hp 1 (by simp)
        simpa using this
      have hmax : max i j + 1 = max (i + 1) (j + 1) := (Nat.succ_max_succ i j).symm
      have hcost : (if c1 = c2 then 0 else 1) ≤ 1 := by
        split <;> omega
      have hv : min (min (pj1 + 1) (cur + 1)) (pj + (if c1 = c2 then 0 else 1)) ≤
          max (i + 1) (j + 1) := by
        have h1 : pj + (if c1 = c2 then 0 else 1) ≤ max i j + 1 := by omega
        have := le_trans (Nat.min_le_right (min (pj1 + 1) (cur + 1)) _) h1
        omega
      have hprev' : ∀ k, k < (pj1 :: prest).length →
          (pj1 :: prest).getD k 0 ≤ max i ((j + 1) + k) := by
        intro k hk
        have := hp (k + 1) (by simpa using Nat.succ_lt_succ hk)
        have harith : j + (k + 1) = j + 1 + k := by omega
        rw [List.getD_cons_succ] at this
        rw [← harith]
        exact this
      obtain ⟨ihlen, ihbound⟩ := ih (pj1 :: prest)
        (min (min (pj1 + 1) (cur + 1)) (pj + (if c1 = c2 then 0 else 1)))
        i (j + 1) (by simpa using hl') hv hprev'
      constructor
      · simpa [levRowAux] using ihlen
      · intro k hk
        match k with
        | 0 =>
          simpa [levRowAux] using hv
        | Nat.succ k' =>
          have hb := ihbound k' (by simpa using Nat.lt_of_succ_lt_succ hk)
          have harith : j + 1 + 1 + k' = j + 1 + (k' + 1) := by omega
          simp only [levRowAux, List.getD_cons_succ]
          rw [← harith]
          exact hb

theorem levLoop_spec (s2 : List Char) :
    ∀ (s1rest : List Char) (prev : List Nat) (i : Nat),
    prev.length = s2.length + 1 →
    (∀ k, k < prev.length → prev.getD k 0 ≤ max i k) →
    (levLoop s2 prev s1rest i).length = s2.length + 1 ∧
    (∀ k, k < s2.length + 1 →
      (levLoop s2 prev s1rest i).getD k 0 ≤ max (i + s1rest.length) k) := by
  intro s1rest
  induction s1rest with
  | nil =>
    intro prev i hl hp
    exact ⟨hl, fun k hk => by simpa using hp k (by omega)⟩
  | cons c1 s1r ih =>
    intro prev i hl hp
    have hp0 : ∀ k, k < prev.length → prev.getD k 0 ≤ max i (0 + k) := by
      intro k hk
      simpa using hp k hk
    obtain ⟨auxlen, auxbound⟩ := levRowAux_spec c1 s2 prev (i + 1) i 0 hl
      (le_max_left _ _) hp0
    have hl' : ((i + 1) :: levRowAux c1 (i + 1) prev s2).length = s2.length + 1 := by
      simpa using auxlen
    have hp' : ∀ k, k < ((i + 1) :: levRowAux c1 (i + 1) prev s2).length →
        ((i + 1) :: levRowAux c1 (i + 1) prev s2).getD k 0 ≤ max (i + 1) k := by
      intro k hk
      match k with
      | 0 => simpa using le_max_left (i + 1) 0
      | Nat.succ k' =>
        have hb := auxbound k' (by rw [hl'] at hk; omega)
        have harith : 0 + 1 + k' = k' + 1 := by omega
        rw [harith] at hb
        simpa using hb
    obtain ⟨outlen, outbound⟩ := ih ((i + 1) :: levRowAux c1 (i + 1) prev s2) (i + 1) hl' hp'
    refine ⟨by simpa [levLoop] using outlen, ?_⟩
    intro k hk
    have hb := outbound k hk
    have harith : i + 1 + s1r.length = i + (s1r.length + 1) := by omega
    rw [harith] at hb
    simpa [levLoop] using hb

theorem getLastD_cons_eq_getD (a : Nat) (l : List Nat) :
    ∀ d, (a :: l).getLastD d = (a :: l).getD l.length 0 := by
  induction l generalizing a with
  | nil => intro d; rfl
  | cons b r ih =>
    intro d
    rw [List.getLastD_cons]
    exact ih b a

theorem levCore_le (s1 s2 : List Char) (h : s2.length ≤ s1.length) :
    levCore s1 s2 ≤ s1.length := by
  by_cases h0 : s2.length = 0
  · simp [levCore, h0]
  · simp only [levCore, if_neg h0]
    have hinit : ∀ k, k < (List.range (s2.length + 1)).length →
        (List.range (s2.length + 1)).getD k 0 ≤ max 0 k := by
      intro k hk
      simp only [List.length_range] at hk
      rw [List.getD_eq_getElem _ _ (by simpa using hk)]
      simp
    obtain ⟨hlen, hbound⟩ := levLoop_spec s2 s1 (List.range (s2.length + 1)) 0
      (by simp) hinit
    match hout : levLoop s2 (List.range (s2.length + 1)) s1 0 with
    | [] =>
      rw [hout] at hlen
      simp at hlen
    | a :: rest =>
      rw [hout] at hlen hbound
      have hrl : rest.length = s2.length := by simpa using hlen
      rw [getLastD_cons_eq_getD, hrl]
      have hb := hbound s2.length (by omega)
      have : max (0 + s1.length) s2.length = s1.length := by
        rw [Nat.zero_add]
        exact Nat.max_eq_left h
      rw [this] at hb
      exact hb

theorem levenshtein_distance_le_max (s1 s2 : String) :
    levenshtein_distance s1 s2 ≤ max s1.length s2.length := by
  unfold levenshtein_distance
  by_cases h : s1.length < s2.length
  · rw [if_pos h]
    have h' : s1.data.length ≤ s2.data.length := Nat.le_of_lt h
    exact le_trans (levCore_le s2.data s1.data h') (le_max_right _ _)
  · rw [if_neg h]
    have h' : s2.data.length ≤ s1.data.length := Nat.not_lt.mp h
    exact le_trans (levCore_le s1.data s2.data h') (le_max_left _ _)

/-! ## Claim C9 — similarity is a well-defined score in [0, 1] -/

/-- C9: for every pair of strings the similarity score lies in `[0, 1]`: the
Levenshtein distance between the normalized strings never exceeds the length
of the longer one, and the equal-after-normalization case (which subsumes
both-empty) is exactly `1`. -/
theorem similarity_bounds (q1 q2 : String) :
    0 ≤ similarity q1 q2 ∧ similarity q1 q2 ≤ 1 ∧
    levenshtein_distance (normalize q1) (normalize q2) ≤
      max (normalize q1).length (normalize q2).length ∧
    (normalize q1 = normalize q2 → similarity q1 q2 = 1) := by
  have hd := levenshtein_distance_le_max (normalize q1) (normalize q2)
  have hsim : similarity q1 q2 =
      if normalize q1 = normalize q2 then 1
      else if max (normalize q1).length (normalize q2).length = 0 then 1
      else 1 - (levenshtein_distance (normalize q1) (normalize q2) : ℚ) /
        ((max (normalize q1).length (normalize q2).length : ℕ) : ℚ) := rfl
  refine ⟨?_, ?_, hd, fun he => by rw [hsim, if_pos he]⟩
  · rw [hsim]
    by_cases he : normalize q1 = normalize q2
    · simp [he]
    · rw [if_neg he]
      by_cases h0 : max (normalize q1).length (normalize q2).length = 0
      · simp [h0]
      · rw [if_neg h0]
        have hm : (0 : ℚ) < ((max (normalize q1).length (normalize q2).length : ℕ) : ℚ) := by
          exact_mod_cast Nat.pos_of_ne_zero h0
        have hq : (levenshtein_distance (normalize q1) (normalize q2) : ℚ) /
            ((max (normalize q1).length (normalize q2).length : ℕ) : ℚ) ≤ 1 := by
          rw [div_le_one hm]
          exact_mod_cast hd
        linarith
  · rw [hsim]
    by_cases he : normalize q1 = normalize q2
    · simp [he]
    · rw [if_neg he]
      by_cases h0 : max (normalize q1).length (normalize q2).length = 0
      · simp [h0]
      · rw [if_neg h0]
        have hm : (0 : ℚ) < ((max (normalize q1).length (normalize q2).length : ℕ) : ℚ) := by
          exact_mod_cast Nat.pos_of_ne_zero h0
        have hq : 0 ≤ (levenshtein_distance (normalize q1) (normalize q2) : ℚ) /
            ((max (normalize q1).length (normalize q2).length : ℕ) : ℚ) :=
          div_nonneg (by positivity) (le_of_lt hm)
        linarith

/-- C9 witness: two strings that normalize to the same text get similarity
exactly 1, via the equal-after-normalization clause of the theorem. -/
theorem similarity_bounds_witness : similarity "The CAT  " "the cat" = 1 :=
  (similarity_bounds "The CAT  " "the cat").2.2.2 (by decide)

/-! ## Claim C6 — dedup first-match contract -/

/-- C6: `find_duplicate` scans the registered requests in registration order
and returns the stored result of the first one whose similarity to the query
reaches the threshold; in particular, with two distinct registrations
`(q1, r1)` then `(q2, r2)` both similar enough to the query, it returns `r1`,
and when no registered request qualifies it returns absent. -/
theorem find_duplicate_first_match {ρ : Type} (thr : ℚ) (query : String) :
    (∀ (l1 l2 : List (String × ρ)) (p : String × ρ),
       (∀ x ∈ l1, similarity query x.1 < thr) → thr ≤ similarity query p.1 →
       findDupScan thr query (l1 ++ p :: l2) = some p.2) ∧
    (∀ l : List (String × ρ), (∀ x ∈ l, similarity query x.1 < thr) →
       findDupScan thr query l = none) ∧
    (∀ (q1 q2 : String) (r1 r2 : ρ), q1 ≠ q2 → thr ≤ similarity query q1 →
       (((RequestDeduplicator.mk ([] : List (String × ρ)) thr).register q1 r1).register
         q2 r2).find_duplicate query = some r1) := by
  refine ⟨?_, ?_, ?_⟩
  · intro l1 l2 p hmiss hhit
    induction l1 with
    | nil =>
      obtain ⟨pq, pr⟩ := p
      simp only [List.nil_append, findDupScan]
      rw [if_pos hhit]
    | cons x l1' ih =>
      obtain ⟨xq, xr⟩ := x
      simp only [List.cons_append, findDupScan]
      rw [if_neg (not_le.mpr (hmiss _ (List.mem_cons_self _ _)))]
      exact ih fun y hy => hmiss y (List.mem_cons_of_mem _ hy)
  · intro l hmiss
    induction l with
    | nil => rfl
    | cons x rest ih =>
      obtain ⟨xq, xr⟩ := x
      simp only [findDupScan]
      rw [if_neg (not_le.mpr (hmiss _ (List.mem_cons_self _ _)))]
      exact ih fun y hy => hmiss y (List.mem_cons_of_mem _ hy)
  · intro q1 q2 r1 r2 hne hsim
    simp only [RequestDeduplicator.register, RequestDeduplicator.find_duplicate, aupsert,
      if_neg hne]
    simp only [findDupScan]
    rw [if_pos hsim]

/-- C6 witness: with threshold 4/5, registrations `( HELLO , 1)` then
`(x, 2)`, the query `hello` matches the first registration exactly
(similarity 1 after normalization) and `find_duplicate` returns 1. -/
theorem find_duplicate_first_match_witness :
    (((RequestDeduplicator.mk ([] : List (String × Nat)) (mkRat 4 5)).register
      " HELLO " 1).register "x" 2).find_duplicate "hello" = some 1 :=
  (find_duplicate_first_match (mkRat 4 5) "hello").2.2 " HELLO " "x" 1 2
    (by decide) (by decide)

/-! ## Claim C10 — parse_with_retry never returns None -/

theorem parse_with_retry_go_result {α : Type} (llm : Nat → String → Except String String)
    (jsonParse : String → ParseOutcome α) (fmt : String) :
    ∀ (fuel : Nat), 1 ≤ fuel → ∀ (k : Nat) (text : String),
    (∃ a, (parse_with_retry_go llm jsonParse fmt fuel k text).result = PResult.parsed a) ∨
    (∃ m, (parse_with_retry_go llm jsonParse fmt fuel k text).result = PResult.raised m) := by
  intro fuel
  induction fuel with
  | zero => intro h; omega
  | succ n ih =>
    intro _ k text
    simp only [parse_with_retry_go]
    cases hj : jsonParse (extract_json text) with
    | ok a => exact Or.inl ⟨a, rfl⟩
    | uncaught e => exact Or.inr ⟨e, rfl⟩
    | caught e =>
      by_cases hn : n = 0
      · subst hn
        simp only [if_pos rfl]
        exact Or.inr ⟨_, rfl⟩
      · simp only [if_neg hn]
        cases hl : llm k (correction_prompt fmt text) with
        | ok content => exact ih (by omega) (k + 1) content
        | error err => exact ih (by omega) (k + 1) text

/-- C10: for any configuration with `max_retries ≥ 1` and any input text,
`parse_with_retry` either returns a parsed instance of the target schema
model or raises; it never reaches the trailing `return None` after the retry
loop. -/
theorem parse_with_retry_never_none {α : Type} (llm : Nat → String → Except String String)
    (jsonParse : String → ParseOutcome α) (fmt : String) (max_retries : Nat)
    (text : String) (h : 1 ≤ max_retries) :
    (∃ a, (parse_with_retry llm jsonParse fmt max_retries text).result =
      PResult.parsed a) ∨
    (∃ m, (parse_with_retry llm jsonParse fmt max_retries text).result =
      PResult.raised m) :=
  parse_with_retry_go_result llm jsonParse fmt max_retries h 0 text

/-- C10 witness: at `max_retries = 3` with a dead backend and a parser that
always fails with a caught error, the call still ends in `parsed` or `raised`
(never the trailing `None`). -/
theorem parse_with_retry_never_none_witness :
    (∃ a, (parse_with_retry (α := Nat) (fun _ _ => Except.error "down")
        (fun _ => ParseOutcome.caught "bad") "S" 3 "x").result = PResult.parsed a) ∨
    (∃ m, (parse_with_retry (α := Nat) (fun _ _ => Except.error "down")
        (fun _ => ParseOutcome.caught "bad") "S" 3 "x").result = PResult.raised m) :=
  parse_with_retry_never_none (fun _ _ => Except.error "down")
    (fun _ => ParseOutcome.caught "bad") "S" 3 "x" (by decide)

/-! ## Claim C3 — exhaustion: exact attempt and round-trip counts -/

theorem getLastD_cons_irrel {β : Type} (a : β) (r : List β) (d1 d2 : β) :
    (a :: r).getLastD d1 = (a :: r).getLastD d2 := by
  rw [List.getLastD_cons, List.getLastD_cons]

theorem getLastD_cons_of_ne_nil {β : Type} (x : β) {l : List β} (d1 d2 : β)
    (h : l ≠ []) : (x :: l).getLastD d1 = l.getLastD d2 := by
  cases l with
  | nil => exact absurd rfl h
  | cons a r =>
    rw [List.getLastD_cons]
    exact getLastD_cons_irrel a r x d2

theorem parse_with_retry_go_exhaust {α : Type} (llm : Nat → String → Except String String)
    (jsonParse : String → ParseOutcome α) (fmt : String)
    (hfail : ∀ t, ∃ e, jsonParse t = ParseOutcome.caught e) :
    ∀ (fuel : Nat), 1 ≤ fuel → ∀ (k : Nat) (text : String),
    (parse_with_retry_go llm jsonParse fmt fuel k text).attempts.length = fuel ∧
    (parse_with_retry_go llm jsonParse fmt fuel k text).prompts.length = fuel - 1 ∧
    (∀ i, i < (parse_with_retry_go llm jsonParse fmt fuel k text).prompts.length →
      (parse_with_retry_go llm jsonParse fmt fuel k text).prompts.getD i "" =
        correction_prompt fmt
          ((parse_with_retry_go llm jsonParse fmt fuel k text).attempts.getD i "")) ∧
    ∃ e, (parse_with_retry_go llm jsonParse fmt fuel k text).result =
           PResult.raised ("Parser failed: " ++ e) ∧
         jsonParse (extract_json
           ((parse_with_retry_go llm jsonParse fmt fuel k text).attempts.getLastD "")) =
           ParseOutcome.caught e := by
  intro fuel
  induction fuel with
  | zero => intro h; omega
  | succ n ih =>
    intro _ k text
    obtain ⟨e, he⟩ := hfail (extract_json text)
    by_cases hn : n = 0
    · subst hn
      simp only [parse_with_retry_go, he, if_pos rfl]
      exact ⟨rfl, rfl, fun i hi => by simp at hi, e, rfl, by simpa using he⟩
    · have hn1 : 1 ≤ n := by omega
      cases hl : llm k (correction_prompt fmt text) with
      | ok content =>
        obtain ⟨ha, hp, hidx, e', hres, hlast⟩ := ih hn1 (k + 1) content
        have hgo : parse_with_retry_go llm jsonParse fmt (n + 1) k text =
            ⟨(parse_with_retry_go llm jsonParse fmt n (k + 1) content).result,
             text :: (parse_with_retry_go llm jsonParse fmt n (k + 1) content).attempts,
             correction_prompt fmt text ::
               (parse_with_retry_go llm jsonParse fmt n (k + 1) content).prompts⟩ := by
          simp only [parse_with_retry_go, he, if_neg hn, hl]
        rw [hgo]
        have hanil : (parse_with_retry_go llm jsonParse fmt n (k + 1) content).attempts ≠ [] := by
          intro hh
          rw [hh] at ha
          simp only [List.length_nil] at ha
          omega
        refine ⟨by simpa using ha, by simp only [List.length_cons]; omega, ?_, e', hres, ?_⟩
        · intro i hi
          match i with
          | 0 => simp
          | Nat.succ i' =>
            simp only [List.getD_cons_succ]
            exact hidx i' (by simpa using Nat.lt_of_succ_lt_succ hi)
        · rw [getLastD_cons_of_ne_nil text "" "" hanil]
          exact hlast
      | error err =>
        obtain ⟨ha, hp, hidx, e', hres, hlast⟩ := ih hn1 (k + 1) text
        have hgo : parse_with_retry_go llm jsonParse fmt (n + 1) k text =
            ⟨(parse_with_retry_go llm jsonParse fmt n (k + 1) text).result,
             text :: (parse_with_retry_go llm jsonParse fmt n (k + 1) text).attempts,
             correction_prompt fmt text ::
               (parse_with_retry_go llm jsonParse fmt n (k + 1) text).prompts⟩ := by
          simp only [parse_with_retry_go, he, if_neg hn, hl]
        rw [hgo]
        have hanil : (parse_with_retry_go llm jsonParse fmt n (k + 1) text).attempts ≠ [] := by
          intro hh
          rw [hh] at ha
          simp only [List.length_nil] at ha
          omega
        refine ⟨by simpa using ha, by simp only [List.length_cons]; omega, ?_, e', hres, ?_⟩
        · intro i hi
          match i with
          | 0 => simp
          | Nat.succ i' =>
            simp only [List.getD_cons_succ]
            exact hidx i' (by simpa using Nat.lt_of_succ_lt_succ hi)
        · rw [getLastD_cons_of_ne_nil text "" "" hanil]
          exact hlast

/-- C3: when every candidate text fails to parse or validate (with a caught
error kind), `parse_with_retry` makes exactly `max_retries` parse attempts,
issues exactly `max_retries - 1` corrective round-trips — each sending the
schema description plus the first 300 characters of the text that just
failed — and raises the `Parser failed` error carrying the error of the final
attempt. -/
theorem parse_with_retry_exhaustion {α : Type} (llm : Nat → String → Except String String)
    (jsonParse : String → ParseOutcome α) (fmt : String) (max_retries : Nat)
    (text : String) (hmr : 1 ≤ max_retries)
    (hfail : ∀ t, ∃ e, jsonParse t = ParseOutcome.caught e) :
    (parse_with_retry llm jsonParse fmt max_retries text).attempts.length = max_retries ∧
    (parse_with_retry llm jsonParse fmt max_retries text).prompts.length =
      max_retries - 1 ∧
    (∀ i, i < (parse_with_retry llm jsonParse fmt max_retries text).prompts.length →
      (parse_with_retry llm jsonParse fmt max_retries text).prompts.getD i "" =
        correction_prompt fmt
          ((parse_with_retry llm jsonParse fmt max_retries text).attempts.getD i "")) ∧
    ∃ e, (parse_with_retry llm jsonParse fmt max_retries text).result =
           PResult.raised ("Parser failed: " ++ e) ∧
         jsonParse (extract_json
           ((parse_with_retry llm jsonParse fmt max_retries text).attempts.getLastD "")) =
           ParseOutcome.caught e :=
  parse_with_retry_go_exhaust llm jsonParse fmt hfail max_retries hmr 0 text

/-- C3 witness: with `max_retries = 3` and a parser that always fails with a
caught error, the decoder makes exactly 3 parse attempts and issues exactly 2
corrective round-trips. -/
theorem parse_with_retry_exhaustion_witness :
    (parse_with_retry (α := Nat) (fun _ _ => Except.ok "y")
      (fun _ => ParseOutcome.caught "bad") "S" 3 "x").attempts.length = 3 ∧
    (parse_with_retry (α := Nat) (fun _ _ => Except.ok "y")
      (fun _ => ParseOutcome.caught "bad") "S" 3 "x").prompts.length = 3 - 1 :=
  ⟨(parse_with_retry_exhaustion (fun _ _ => Except.ok "y")
      (fun _ => ParseOutcome.caught "bad") "S" 3 "x" (by decide)
      (fun t => ⟨"bad", rfl⟩)).1,
   (parse_with_retry_exhaustion (fun _ _ => Except.ok "y")
      (fun _ => ParseOutcome.caught "bad") "S" 3 "x" (by decide)
      (fun t => ⟨"bad", rfl⟩)).2.1⟩

/-! ## Claim C1 — the two retry budgets are nested, not shared -/

theorem parse_with_retry_go_bounds {α : Type} (llm : Nat → String → Except String String)
    (jsonParse : String → ParseOutcome α) (fmt : String) :
    ∀ (fuel k : Nat) (text : String),
    (parse_with_retry_go llm jsonParse fmt fuel k text).attempts.length ≤ fuel ∧
    (parse_with_retry_go llm jsonParse fmt fuel k text).prompts.length ≤ fuel - 1 := by
  intro fuel
  induction fuel with
  | zero => intro k text; simp [parse_with_retry_go]
  | succ n ih =>
    intro k text
    simp only [parse_with_retry_go]
    cases hj : jsonParse (extract_json text) with
    | ok a => simp
    | uncaught e => simp
    | caught e =>
      by_cases hn : n = 0
      · subst hn
        simp
      · simp only [if_neg hn]
        cases hl : llm k (correction_prompt fmt text) with
        | ok content =>
          obtain ⟨h1, h2⟩ := ih (k + 1) content
          constructor
          · simp only [List.length_cons]
            omega
          · simp only [List.length_cons]
            omega
        | error err =>
          obtain ⟨h1, h2⟩ := ih (k + 1) text
          constructor
          · simp only [List.length_cons]
            omega
          · simp only [List.length_cons]
            omega

theorem invoke_with_retry_go_bounds {α : Type} (llm : Nat → String → Except String String)
    (jsonParse : String → ParseOutcome α) (fmt chain_prompt : String) (mr : Nat) :
    ∀ (fuel k : Nat),
    (invoke_with_retry_go llm jsonParse fmt chain_prompt mr fuel k).chain_calls ≤ fuel ∧
    (invoke_with_retry_go llm jsonParse fmt chain_prompt mr fuel k).attempts.length ≤
      fuel * mr ∧
    (invoke_with_retry_go llm jsonParse fmt chain_prompt mr fuel k).llm_calls ≤
      fuel * (1 + (mr - 1)) := by
  intro fuel
  induction fuel with
  | zero => intro k; simp [invoke_with_retry_go]
  | succ n ih =>
    intro k
    have hmul1 : ∀ m : Nat, m ≤ (n + 1) * m := fun m => by
      calc m = 1 * m := (Nat.one_mul m).symm
      _ ≤ (n + 1) * m := Nat.mul_le_mul_right m (by omega)
    have hmuls : ∀ a m : Nat, a ≤ n * m → a + m ≤ (n + 1) * m := fun a m ha => by
      rw [Nat.succ_mul]
      omega
    cases hl : llm k chain_prompt with
    | error e =>
      by_cases hn : n = 0
      · subst hn
        have hgo : invoke_with_retry_go llm jsonParse fmt chain_prompt mr (0 + 1) k =
            ⟨.raised e, 1, [], [], 1⟩ := by
          simp [invoke_with_retry_go, hl]
        rw [hgo]
        dsimp only
        refine ⟨by omega, by simp, ?_⟩
        have := hmul1 (1 + (mr - 1))
        omega
      · have hgo : invoke_with_retry_go llm jsonParse fmt chain_prompt mr (n + 1) k =
            ⟨(invoke_with_retry_go llm jsonParse fmt chain_prompt mr n (k + 1)).result,
             (invoke_with_retry_go llm jsonParse fmt chain_prompt mr n (k + 1)).chain_calls + 1,
             (invoke_with_retry_go llm jsonParse fmt chain_prompt mr n (k + 1)).attempts,
             (invoke_with_retry_go llm jsonParse fmt chain_prompt mr n (k + 1)).prompts,
             (invoke_with_retry_go llm jsonParse fmt chain_prompt mr n (k + 1)).llm_calls + 1⟩ := by
          simp [invoke_with_retry_go, hl, if_neg hn]
        rw [hgo]
        dsimp only
        obtain ⟨h1, h2, h3⟩ := ih (k + 1)
        refine ⟨by omega, le_trans h2 (Nat.mul_le_mul_right mr (by omega)), ?_⟩
        have := hmuls _ (1 + (mr - 1)) h3
        omega
    | ok content =>
      obtain ⟨hpa, hpp⟩ := parse_with_retry_go_bounds llm jsonParse fmt mr (k + 1) content
      cases hres : (parse_with_retry_go llm jsonParse fmt mr (k + 1) content).result with
      | parsed a =>
        have hgo : invoke_with_retry_go llm jsonParse fmt chain_prompt mr (n + 1) k =
            ⟨.parsed a, 1,
             (parse_with_retry_go llm jsonParse fmt mr (k + 1) content).attempts,
             (parse_with_retry_go llm jsonParse fmt mr (k + 1) content).prompts,
             (parse_with_retry_go llm jsonParse fmt mr (k + 1) content).prompts.length + 1⟩ := by
          simp [invoke_with_retry_go, hl, hres]
        rw [hgo]
        dsimp only
        refine ⟨by omega, le_trans hpa (hmul1 mr), ?_⟩
        have := hmul1 (1 + (mr - 1))
        omega
      | returnedNone =>
        have hgo : invoke_with_retry_go llm jsonParse fmt chain_prompt mr (n + 1) k =
            ⟨.returnedNone, 1,
             (parse_with_retry_go llm jsonParse fmt mr (k + 1) content).attempts,
             (parse_with_retry_go llm jsonParse fmt mr (k + 1) content).prompts,
             (parse_with_retry_go llm jsonParse fmt mr (k + 1) content).prompts.length + 1⟩ := by
          simp [invoke_with_retry_go, hl, hres]
        rw [hgo]
        dsimp only
        refine ⟨by omega, le_trans hpa (hmul1 mr), ?_⟩
        have := hmul1 (1 + (mr - 1))
        omega
      | raised msg =>
        by_cases hn : n = 0
        · subst hn
          have hgo : invoke_with_retry_go llm jsonParse fmt chain_prompt mr (0 + 1) k =
              ⟨.raised msg, 1,
               (parse_with_retry_go llm jsonParse fmt mr (k + 1) content).attempts,
               (parse_with_retry_go llm jsonParse fmt mr (k + 1) content).prompts,
               (parse_with_retry_go llm jsonParse fmt mr (k + 1) content).prompts.length + 1⟩ := by
            simp [invoke_with_retry_go, hl, hres]
          rw [hgo]
          dsimp only
          refine ⟨by omega, le_trans hpa (hmul1 mr), ?_⟩
          have := hmul1 (1 + (mr - 1))
          omega
        · have hgo : invoke_with_retry_go llm jsonParse fmt chain_prompt mr (n + 1) k =
              ⟨(invoke_with_retry_go llm jsonParse fmt chain_prompt mr n
                  (k + 1 + (parse_with_retry_go llm jsonParse fmt mr (k + 1)
                    content).prompts.length)).result,
               (invoke_with_retry_go llm jsonParse fmt chain_prompt mr n
                  (k + 1 + (parse_with_retry_go llm jsonParse fmt mr (k + 1)
                    content).prompts.length)).chain_calls + 1,
               (parse_with_retry_go llm jsonParse fmt mr (k + 1) content).attempts ++
                 (invoke_with_retry_go llm jsonParse fmt chain_prompt mr n
                  (k + 1 + (parse_with_retry_go llm jsonParse fmt mr (k + 1)
                    content).prompts.length)).attempts,
               (parse_with_retry_go llm jsonParse fmt mr (k + 1) content).prompts ++
                 (invoke_with_retry_go llm jsonParse fmt chain_prompt mr n
                  (k + 1 + (parse_with_retry_go llm jsonParse fmt mr (k + 1)
                    content).prompts.length)).prompts,
               (invoke_with_retry_go llm jsonParse fmt chain_prompt mr n
                  (k + 1 + (parse_with_retry_go llm jsonParse fmt mr (k + 1)
                    content).prompts.length)).llm_calls +
                 (parse_with_retry_go llm jsonParse fmt mr (k + 1) content).prompts.length +
                 1⟩ := by
            simp [invoke_with_retry_go, hl, hres, if_neg hn]
          rw [hgo]
          dsimp only
          obtain ⟨h1, h2, h3⟩ := ih (k + 1 + (parse_with_retry_go llm jsonParse fmt mr
            (k + 1) content).prompts.length)
          refine ⟨by omega, ?_, ?_⟩
          · simp only [List.length_append]
            have := hmuls _ mr h2
            omega
          · have := hmuls _ (1 + (mr - 1)) h3
            omega

/-- C1, counterexample to the claim as stated: with `max_retries = 2` and a
backend whose chain call always succeeds but whose text never parses, a single
`invoke_with_retry` invocation performs 4 parse attempts and 4 backend
invocations (2 chain calls + 2 corrective round-trips) before the failure is
re-raised — the claimed shared budget of at most 2 attempts in total is
exceeded, because the outer `except Exception` catches the inner
`ValueError` and restarts `parse_with_retry` with a fresh budget. -/
theorem invoke_with_retry_shared_budget_counterexample :
    (invoke_with_retry (α := Nat) (fun _ _ => Except.ok "x")
      (fun _ => ParseOutcome.caught "bad") "S" "P" 2).attempts.length = 4 ∧
    (invoke_with_retry (α := Nat) (fun _ _ => Except.ok "x")
      (fun _ => ParseOutcome.caught "bad") "S" "P" 2).llm_calls = 4 ∧
    ¬ ((invoke_with_retry (α := Nat) (fun _ _ => Except.ok "x")
      (fun _ => ParseOutcome.caught "bad") "S" "P" 2).attempts.length +
       (invoke_with_retry (α := Nat) (fun _ _ => Except.ok "x")
      (fun _ => ParseOutcome.caught "bad") "S" "P" 2).chain_calls ≤ 2) := by
  decide

/-- C1 (amended): the call-failure loop and the decode-failure loop have
nested, independent `maxRetries` budgets rather than a shared one: per
invocation of `invoke_with_retry` there are at most `maxRetries` chain-call
attempts, and each successful chain call runs `parse_with_retry` with its own
fresh `maxRetries` budget, so in total at most `maxRetries²` parse attempts
and at most `maxRetries²` backend invocations occur before the failure is
raised. -/
theorem invoke_with_retry_nested_budgets {α : Type}
    (llm : Nat → String → Except String String)
    (jsonParse : String → ParseOutcome α) (fmt chain_prompt : String) (mr : Nat)
    (hmr : 1 ≤ mr) :
    (invoke_with_retry llm jsonParse fmt chain_prompt mr).chain_calls ≤ mr ∧
    (invoke_with_retry llm jsonParse fmt chain_prompt mr).attempts.length ≤ mr * mr ∧
    (invoke_with_retry llm jsonParse fmt chain_prompt mr).llm_calls ≤ mr * mr := by
  obtain ⟨h1, h2, h3⟩ := invoke_with_retry_go_bounds llm jsonParse fmt chain_prompt mr mr 0
  have hb : 1 + (mr - 1) = mr := by omega
  rw [hb] at h3
  exact ⟨h1, h2, h3⟩

/-- C1 witness: the amended bounds at `maxRetries = 2` with the
always-invalid backend of the counterexample. -/
theorem invoke_with_retry_nested_budgets_witness :
    (invoke_with_retry (α := Nat) (fun _ _ => Except.ok "x")
      (fun _ => ParseOutcome.caught "bad") "S" "P" 2).chain_calls ≤ 2 ∧
    (invoke_with_retry (α := Nat) (fun _ _ => Except.ok "x")
      (fun _ => ParseOutcome.caught "bad") "S" "P" 2).attempts.length ≤ 2 * 2 ∧
    (invoke_with_retry (α := Nat) (fun _ _ => Except.ok "x")
      (fun _ => ParseOutcome.caught "bad") "S" "P" 2).llm_calls ≤ 2 * 2 :=
  invoke_with_retry_nested_budgets (fun _ _ => Except.ok "x")
    (fun _ => ParseOutcome.caught "bad") "S" "P" 2 (by decide)

/-! ## Claim C4 — node-boundary failure policy -/

/-- A state whose classification routes to the theory specialist, used to
exhibit the specialists' failure behaviour at a concrete input. -/
def failingTheoryState : GraphState :=
  { user_query := "explain monads"
    session_memory := ⟨"s1", [], [], [], []⟩
    classification := some ⟨"theory", "simple", false, ["theory_explainer"], "conceptual"⟩
    react_chain := []
    agent_outputs := []
    final_answer := none
    execution_log := []
    errors := []
    retry_count := 0
    retrieved_context := none }

/-- C4, counterexample to the claim as stated: when the theory specialist's
decoder call fails, the node records the error in `errors` but writes **no**
failure marker into `executionLog` (the log stays empty), contradicting the
claim that every node logs a failure marker carrying its name; in the source
only the router's handler touches `execution_log`. -/
theorem node_failure_logging_counterexample :
    (theory_explainer_node (Except.error "boom") (fun s => s)
      failingTheoryState).errors = ["Theory: boom"] ∧
    (theory_explainer_node (Except.error "boom") (fun s => s)
      failingTheoryState).execution_log = [] := by
  decide

/-- C4 (amended): an exception from the decoder call is caught at every node
boundary and appended to `errors` as an entry carrying the node's name; the
node returns a state update instead of propagating, so the graph run is never
aborted.  The router additionally appends a `FAILED: Router` marker to
`executionLog`; the four specialist nodes leave `executionLog` (and all other
fields except `errors`) unchanged on failure. -/
theorem node_failure_policy (e : String) (state : GraphState)
    (kb ex sv : String → String) :
    ((router_node (Except.error e) state).errors =
        state.errors ++ ["Router: " ++ e.take 80] ∧
     (router_node (Except.error e) state).execution_log =
        state.execution_log ++ ["FAILED: Router"]) ∧
    (∀ c, state.classification = some c → c.query_type = "theory" →
       (theory_explainer_node (Except.error e) kb state).errors =
          state.errors ++ ["Theory: " ++ e.take 80] ∧
       (theory_explainer_node (Except.error e) kb state).execution_log =
          state.execution_log ∧
       (theory_explainer_node (Except.error e) kb state).agent_outputs =
          state.agent_outputs ∧
       (theory_explainer_node (Except.error e) kb state).final_answer =
          state.final_answer) ∧
    (∀ c, state.classification = some c → c.query_type = "design" →
       (design_advisor_node (Except.error e) state).errors =
          state.errors ++ ["Design: " ++ e.take 80] ∧
       (design_advisor_node (Except.error e) state).execution_log =
          state.execution_log) ∧
    (∀ c, state.classification = some c → c.query_type = "code" →
       (code_helper_node (Except.error e) ex state).errors =
          state.errors ++ ["Code: " ++ e.take 80] ∧
       (code_helper_node (Except.error e) ex state).execution_log =
          state.execution_log) ∧
    (∀ c, state.classification = some c → c.query_type = "planning" →
       (planner_node (Except.error e) sv state).errors =
          state.errors ++ ["Planner: " ++ e.take 80] ∧
       (planner_node (Except.error e) sv state).execution_log =
          state.execution_log) := by
  refine ⟨⟨?_, ?_⟩, ?_, ?_, ?_, ?_⟩
  · simp [router_node]
  · simp [router_node]
  · intro c hc ht
    simp [theory_explainer_node, hc, ht]
  · intro c hc ht
    simp [design_advisor_node, hc, ht]
  · intro c hc ht
    simp [code_helper_node, hc, ht]
  · intro c hc ht
    simp [planner_node, hc, ht]

/-- C4 witness: the policy at concrete inputs — the router failure appends its
error and marker, and the theory specialist failure appends only its error. -/
theorem node_failure_policy_witness :
    (router_node (Except.error "boom") failingTheoryState).errors =
      failingTheoryState.errors ++ ["Router: " ++ ("boom").take 80] ∧
    (theory_explainer_node (Except.error "boom") (fun s => s)
      failingTheoryState).errors =
        failingTheoryState.errors ++ ["Theory: " ++ ("boom").take 80] ∧
    (theory_explainer_node (Except.error "boom") (fun s => s)
      failingTheoryState).execution_log = failingTheoryState.execution_log :=
  ⟨(node_failure_policy "boom" failingTheoryState (fun s => s) (fun s => s)
      (fun s => s)).1.1,
   ((node_failure_policy "boom" failingTheoryState (fun s => s) (fun s => s)
      (fun s => s)).2.1 ⟨"theory", "simple", false, ["theory_explainer"], "conceptual"⟩
      rfl rfl).1,
   ((node_failure_policy "boom" failingTheoryState (fun s => s) (fun s => s)
      (fun s => s)).2.1 ⟨"theory", "simple", false, ["theory_explainer"], "conceptual"⟩
      rfl rfl).2.1⟩

/-! ## Claim C7 — router failure still yields a degraded answer -/

/-- C7: when the router's decoder call fails, the run records an error, leaves
the classification absent, routes directly to the synthesizer (no specialist
and no memory retriever executes), and still completes with a non-empty
fallback `finalAnswer`. -/
theorem router_failure_degraded_run (e q : String) (mem : SessionMemory)
    (thd : Except String TheoryExplanation) (dsd : Except String DesignAdvice)
    (cdd : Except String CodeSolution) (pld : Except String PlanOutput)
    (kb ex sv : String → String) (notes : String) (toolOf : String → Option String) :
    (run_graph ⟨Except.error e, thd, dsd, cdd, pld, kb, ex, sv, notes, toolOf⟩
        (initial_state q mem)).2 = ["router", "synthesizer"] ∧
    (run_graph ⟨Except.error e, thd, dsd, cdd, pld, kb, ex, sv, notes, toolOf⟩
        (initial_state q mem)).1.classification = none ∧
    (run_graph ⟨Except.error e, thd, dsd, cdd, pld, kb, ex, sv, notes, toolOf⟩
        (initial_state q mem)).1.errors = ["Router: " ++ e.take 80] ∧
    (run_graph ⟨Except.error e, thd, dsd, cdd, pld, kb, ex, sv, notes, toolOf⟩
        (initial_state q mem)).1.errors ≠ [] ∧
    ∃ a, (run_graph ⟨Except.error e, thd, dsd, cdd, pld, kb, ex, sv, notes, toolOf⟩
        (initial_state q mem)).1.final_answer = some a ∧
      a.final_answer = "Processed query through: unknown. Available outputs: none" ∧
      a.final_answer ≠ "" := by
  refine ⟨rfl, rfl, rfl, ?_, _, rfl, rfl, ?_⟩
  · simp [show (run_graph ⟨Except.error e, thd, dsd, cdd, pld, kb, ex, sv, notes, toolOf⟩
        (initial_state q mem)).1.errors = ["Router: " ++ e.take 80] from rfl]
  · intro h
    have hlit : ("Processed query through: unknown. Available outputs: none" : String) = "" :=
      Eq.trans rfl h
    exact absurd hlit (by decide)

end Lab2
